import Mathlib

/-!
Verification development for `pydom.py`, a JavaScript-like DOM wrapper over
BeautifulSoup.  The document tree is embedded as a store of nodes addressed by
identity (`NodeId`), mirroring Python object identity: each node records its
tag name, attributes, ordered child ids and a parent back-pointer, exactly the
state that the BeautifulSoup `Tag` objects used by `pydom.py` carry.  The
BeautifulSoup primitives used by the repository (`insert`, `append`,
`extract`, `clear`, `decompose`, `insert_before`, `insert_after`, structural
`Tag.__eq__`, `find`) are modelled faithfully, including in-place mutation and
iterator semantics, and the `pydom` methods are defined on top of them
following the source line by line.
-/

namespace Pydom

/-- Node identity, standing for Python object identity of a Tag or
NavigableString. -/
abbrev NodeId := Nat

/-- Kind of a node: a Tag (element, including the `[document]` root produced
by BeautifulSoup) or a NavigableString. -/
inductive Kind where
  | element
  | textN
deriving DecidableEq, Repr

/-- One node of the tree: tag name, attributes, child ids in order, parent
back-pointer; `text` is the payload of a NavigableString. -/
structure Node where
  kind : Kind := .element
  name : String := ""
  text : String := ""
  attrs : List (String × String) := []
  contents : List NodeId := []
  parent : Option NodeId := none
deriving DecidableEq, Repr

/-- The node store: an association list from id to node, plus the next fresh
id.  It models the heap of BeautifulSoup objects the program mutates. -/
structure Store where
  nodes : List (NodeId × Node)
  nextId : NodeId
deriving DecidableEq, Repr

/-- Lookup of a node by id (first match). -/
def lookupN : List (NodeId × Node) → NodeId → Option Node
  | [], _ => none
  | kv :: t, i => if kv.1 = i then some kv.2 else lookupN t i

/-- In-place update of the node bound to an id (no-op if absent). -/
def updN : List (NodeId × Node) → NodeId → Node → List (NodeId × Node)
  | [], _, _ => []
  | kv :: t, i, n => if kv.1 = i then (i, n) :: t else kv :: updN t i n

def Store.get (s : Store) (i : NodeId) : Option Node := lookupN s.nodes i

def Store.set (s : Store) (i : NodeId) (n : Node) : Store :=
  ⟨updN s.nodes i n, s.nextId⟩

def Store.ids (s : Store) : List NodeId := s.nodes.map Prod.fst

/-- Allocate a fresh node, as Python object construction does. -/
def newNode (s : Store) (n : Node) : Store × NodeId :=
  (⟨s.nodes ++ [(s.nextId, n)], s.nextId + 1⟩, s.nextId)

/-- Parent pointer of a node (none for detached nodes and unknown ids). -/
def parentOf (s : Store) (i : NodeId) : Option NodeId :=
  match s.get i with
  | some n => n.parent
  | none => none

/-- Child list of a node (empty for unknown ids). -/
def contentsOf (s : Store) (i : NodeId) : List NodeId :=
  match s.get i with
  | some n => n.contents
  | none => []

/-- Remove the first occurrence of an id from a list, as
`del contents[contents.index-by-identity]` does. -/
def removeFirst : List NodeId → NodeId → List NodeId
  | [], _ => []
  | x :: t, i => if x = i then t else x :: removeFirst t i

/-- Identity-based index, modelling BeautifulSoup `Tag.index` (which compares
with `is`). -/
def idIndexOf : List NodeId → NodeId → Option Nat
  | [], _ => none
  | x :: t, i => if x = i then some 0 else (idIndexOf t i).map (· + 1)

/-- Python `list.insert(pos, a)` for `pos ≤ len` (callers clamp as
BeautifulSoup does). -/
def insertAt : Nat → NodeId → List NodeId → List NodeId
  | 0, a, l => a :: l
  | _ + 1, a, [] => [a]
  | n + 1, a, x :: t => x :: insertAt n a t

/-- Error classes of the spec's error-handling design, tagging the Python
exceptions the code raises: `notFound` is the ValueError raised by
`list.index` on a missing reference child, `invalidState` the ValueError
BeautifulSoup raises for `insert_before`/`insert_after` on a parentless node,
`invalidPosition` the explicit ValueError for a bad adjacency position,
`selfInsert` the ValueError for inserting a tag into itself, and `valueErr`
other ValueErrors (e.g. tuple-unpacking failures). -/
inductive DomError where
  | typeErr
  | notFound
  | invalidState
  | invalidPosition
  | selfInsert
  | valueErr
deriving DecidableEq, Repr

/-- Clear a node's parent pointer in place (`self.parent = None`). -/
def bsDetach (s : Store) (i : NodeId) : Store :=
  match s.get i with
  | none => s
  | some n1 => s.set i { n1 with parent := none }

/-- BeautifulSoup `PageElement.extract`: remove the node from its parent's
child list (by identity, `del self.parent.contents[self.parent.index(self)]`)
and clear its parent pointer.  Mutation is modelled read-after-write, exactly
as Python mutates the shared objects. -/
def bsExtract (s : Store) (i : NodeId) : Store :=
  match s.get i with
  | none => s
  | some n =>
    match n.parent with
    | none => s
    | some p =>
      bsDetach
        (match s.get p with
         | none => s
         | some np => s.set p { np with contents := removeFirst np.contents i }) i

/-- BeautifulSoup `Tag.insert(position, new_child)`: refuses inserting a tag
into itself, clamps the position, adjusts it when the child is already a
child of this very tag at an earlier index, extracts the child from any
current parent, then splices it in and sets its parent pointer. -/
def bsInsert (s : Store) (p : NodeId) (pos : Nat) (i : NodeId) : Except DomError Store :=
  if i = p then .error .selfInsert
  else
    match s.get p, s.get i with
    | some np, some ni =>
      let pos1 := min pos np.contents.length
      let pos2 :=
        match ni.parent with
        | some q =>
          if q = p then
            match idIndexOf np.contents i with
            | some ci => if ci < pos1 then pos1 - 1 else pos1
            | none => pos1
          else pos1
        | none => pos1
      let s1 :=
        match ni.parent with
        | some _ => bsExtract s i
        | none => s
      match s1.get i with
      | some ni1 =>
        let s2 := s1.set i { ni1 with parent := some p }
        match s2.get p with
        | some np2 => .ok (s2.set p { np2 with contents := insertAt pos2 i np2.contents })
        | none => .error .typeErr
      | none => .error .typeErr
    | _, _ => .error .typeErr

/-- BeautifulSoup `Tag.append(child)`, i.e. `insert(len(contents), child)`. -/
def bsAppend (s : Store) (p i : NodeId) : Except DomError Store :=
  bsInsert s p (contentsOf s p).length i

/-- BeautifulSoup `Tag.clear()`: extract every current child (iterating a
snapshot copy of the child list, as `self.contents[:]` does). -/
def bsClear (s : Store) (p : NodeId) : Store :=
  (contentsOf s p).foldl (fun st c => bsExtract st c) s

/-- Ids of a node and all its descendants (depth-first via child lists), used
to model `decompose` destroying a subtree. -/
def collectSubtree : Nat → Store → List NodeId → List NodeId → List NodeId
  | 0, _, acc, _ => acc
  | _ + 1, _, acc, [] => acc
  | f + 1, s, acc, i :: rest => collectSubtree f s (acc ++ [i]) (contentsOf s i ++ rest)

/-- BeautifulSoup `Tag.decompose()`: extract the node, then destroy it and all
its descendants (they disappear from the object graph). -/
def bsDecompose (s : Store) (i : NodeId) : Store :=
  let s1 := bsExtract s i
  let r := collectSubtree (s1.nodes.length + 1) s1 [] [i]
  ⟨s1.nodes.filter (fun kv => !(r.contains kv.1)), s1.nextId⟩

/-- BeautifulSoup `PageElement.insert_before(predecessor)`: refuses inserting
an element before itself, requires a parent, extracts the predecessor first,
then inserts it at this element's identity index in the parent. -/
def bsInsertBefore (s : Store) (i j : NodeId) : Except DomError Store :=
  if j = i then .error .selfInsert
  else
    match parentOf s i with
    | none => .error .invalidState
    | some p =>
      let s1 := bsExtract s j
      match idIndexOf (contentsOf s1 p) i with
      | some idx => bsInsert s1 p idx j
      | none => .error .notFound

/-- BeautifulSoup `PageElement.insert_after(successor)`: like `insert_before`
but at the next index. -/
def bsInsertAfter (s : Store) (i j : NodeId) : Except DomError Store :=
  if j = i then .error .selfInsert
  else
    match parentOf s i with
    | none => .error .invalidState
    | some p =>
      let s1 := bsExtract s j
      match idIndexOf (contentsOf s1 p) i with
      | some idx => bsInsert s1 p (idx + 1) j
      | none => .error .notFound

/-- Python dict equality on attribute mappings (order-insensitive), as used by
BeautifulSoup `Tag.__eq__` via `self.attrs != other.attrs`. -/
def attrsSubEq (a b : List (String × String)) : Bool :=
  a.all (fun kv => b.lookup kv.1 == some kv.2)

def attrsEq (a b : List (String × String)) : Bool :=
  attrsSubEq a b && attrsSubEq b a

/-- BeautifulSoup structural equality `Tag.__eq__` / NavigableString equality:
identity short-circuit, then same name, same attributes, and recursively equal
contents of the same length.  `fuel` bounds the recursion depth; every call
site passes at least the store size, which is ample on well-formed trees. -/
def nodeEq (s : Store) : Nat → NodeId → NodeId → Bool
  | 0, i, j => i == j
  | fuel + 1, i, j =>
    i == j ||
      match s.get i, s.get j with
      | some a, some b =>
        match a.kind, b.kind with
        | .textN, .textN => a.text == b.text
        | .element, .element =>
          a.name == b.name && attrsEq a.attrs b.attrs &&
          a.contents.length == b.contents.length &&
          (a.contents.zip b.contents).all (fun c => nodeEq s fuel c.1 c.2)
        | _, _ => false
      | _, _ => false

def structFuel (s : Store) : Nat := s.nodes.length + 1

/-- Python `list.index(x)` over a child list: first index whose element
compares `==` (BeautifulSoup structural equality) to `x`; `none` models the
ValueError Python raises when nothing matches. -/
def structIndexAux (s : Store) (x : NodeId) : List NodeId → Option Nat
  | [] => none
  | c :: t =>
    if nodeEq s (structFuel s) c x then some 0
    else (structIndexAux s x t).map (· + 1)

/-- A parse tree as delivered by the external parser (`BeautifulSoup(html,
"html.parser")` is a black box turning text into such a forest). -/
inductive PTree where
  | ptext (s : String)
  | pelem (name : String) (attrs : List (String × String)) (children : List PTree)

/-- Allocate one fresh childless node and wire it under a parent: the node is
created with its parent back-pointer set and appended to the parent's child
list, as the parser links each fresh Tag. -/
def attachFresh (s : Store) (parentId : NodeId) (nd : Node) : Store :=
  match (newNode s nd).1.get parentId with
  | some pn =>
    (newNode s nd).1.set parentId { pn with contents := pn.contents ++ [(newNode s nd).2] }
  | none => (newNode s nd).1

mutual

/-- Materialize one parsed tree under a parent, allocating fresh nodes, as the
parser builds fresh Tag objects whose parents are wired up. -/
def allocTree (s : Store) (parentId : NodeId) (t : PTree) : Store :=
  match t with
  | .ptext str =>
    attachFresh s parentId { kind := .textN, text := str, parent := some parentId }
  | .pelem nm ats ch =>
    allocForest
      (attachFresh s parentId
        { kind := .element, name := nm, attrs := ats, parent := some parentId })
      s.nextId ch

/-- Materialize a parsed forest left to right. -/
def allocForest (s : Store) (parentId : NodeId) (ts : List PTree) : Store :=
  match ts with
  | [] => s
  | t :: rest => allocForest (allocTree s parentId t) parentId rest

end

/-- Build the `BeautifulSoup` fragment object for a parsed forest: a fresh
`[document]` node whose contents are the freshly materialized top-level
nodes. -/
def allocFragment (s : Store) (ts : List PTree) : Store × NodeId :=
  (allocForest (newNode s { kind := .element, name := "[document]" }).1 s.nextId ts,
    s.nextId)

/-- Python `for child in lst:` over a LIVE list (`new_content.contents`),
index-based: the body may shrink the list, in which case elements shift under
the iterator.  `body` receives the store and the current child. -/
def fwdLoop (body : Store → NodeId → Except DomError Store) :
    Nat → Store → NodeId → Nat → Except DomError Store
  | 0, s, _, _ => .ok s
  | fuel + 1, s, frag, i =>
    let l := contentsOf s frag
    if h : i < l.length then
      match body s (l.get ⟨i, h⟩) with
      | .error e => .error e
      | .ok s1 => fwdLoop body fuel s1 frag (i + 1)
    else .ok s

/-- Python `for child in reversed(lst):` over a live list: the reverse
iterator starts at the initial last index and steps down, stopping when the
index leaves the (possibly shrunk) list.  `idxp1` is the current index plus
one (0 meaning exhausted). -/
def revLoop (body : Store → NodeId → Except DomError Store) :
    Nat → Store → NodeId → Nat → Except DomError Store
  | 0, s, _, _ => .ok s
  | fuel + 1, s, frag, idxp1 =>
    match idxp1 with
    | 0 => .ok s
    | idx + 1 =>
      let l := contentsOf s frag
      if h : idx < l.length then
        match body s (l.get ⟨idx, h⟩) with
        | .error e => .error e
        | .ok s1 => revLoop body fuel s1 frag idx
      else .ok s

/-- `Element.appendChild`: `self.tag.append(child.tag)`. -/
def Element.appendChild (s : Store) (selfId child : NodeId) : Except DomError Store :=
  bsAppend s selfId child

/-- `Element.prepend`: `insert(0, child.tag)` when there are children, else
`append(child.tag)`. -/
def Element.prepend (s : Store) (selfId child : NodeId) : Except DomError Store :=
  if contentsOf s selfId ≠ [] then bsInsert s selfId 0 child
  else bsAppend s selfId child

/-- `Element.insertBefore`: `index = self.tag.contents.index(reference.tag)`
(structural `==` search, ValueError if absent) then `self.tag.insert(index,
new_child.tag)`. -/
def Element.insertBefore (s : Store) (selfId newC refC : NodeId) : Except DomError Store :=
  match structIndexAux s refC (contentsOf s selfId) with
  | none => .error .notFound
  | some idx => bsInsert s selfId idx newC

/-- `Element.replaceChild`: `index = self.tag.contents.index(old.tag)`
(structural search) then the raw list assignment `self.tag.contents[index] =
new_child.tag`, which touches no parent pointers. -/
def Element.replaceChild (s : Store) (selfId newC oldC : NodeId) : Except DomError Store :=
  match structIndexAux s oldC (contentsOf s selfId) with
  | none => .error .notFound
  | some idx =>
    match s.get selfId with
    | some n => .ok (s.set selfId { n with contents := n.contents.set idx newC })
    | none => .error .typeErr

/-- `Element.remove`: `self.tag.decompose()`. -/
def Element.remove (s : Store) (selfId : NodeId) : Store := bsDecompose s selfId

/-- `Element.innerHTML` setter: `self.tag.clear()`, parse the fragment, then
`for child in new_content.contents: self.tag.append(child)` — iterating the
fragment's live child list while `append` extracts from it. -/
def Element.setInnerHTML (s : Store) (selfId : NodeId) (forest : List PTree) :
    Except DomError Store :=
  let s1 := bsClear s selfId
  let r := allocFragment s1 forest
  fwdLoop (fun st c => bsAppend st selfId c) ((contentsOf r.1 r.2).length + 1) r.1 r.2 0

/-- `Element.textContent` setter: `self.tag.clear()` then
`self.tag.append(text_str)` (the string becomes a fresh NavigableString). -/
def Element.setTextContent (s : Store) (selfId : NodeId) (txt : String) :
    Except DomError Store :=
  let s1 := bsClear s selfId
  let r := newNode s1 { kind := .textN, text := txt }
  bsInsert r.1 selfId (contentsOf r.1 selfId).length r.2

/-- `Element.insertAdjacentHTML`: parse first, then dispatch on the position
string; `beforebegin`/`afterbegin` iterate the fragment children reversed,
`beforeend`/`afterend` forward, each body moving the child out of the
fragment. -/
def Element.insertAdjacentHTML (s : Store) (selfId : NodeId) (position : String)
    (forest : List PTree) : Except DomError Store :=
  let r := allocFragment s forest
  let n := (contentsOf r.1 r.2).length
  if position = "beforebegin" then
    revLoop (fun st c => bsInsertBefore st selfId c) (n + 1) r.1 r.2 n
  else if position = "afterbegin" then
    revLoop (fun st c => bsInsert st selfId 0 c) (n + 1) r.1 r.2 n
  else if position = "beforeend" then
    fwdLoop (fun st c => bsAppend st selfId c) (n + 1) r.1 r.2 0
  else if position = "afterend" then
    fwdLoop (fun st c => bsInsertAfter st selfId c) (n + 1) r.1 r.2 0
  else .error .invalidPosition

/-- `Element.insertAdjacentElement`: dispatch on the position string over the
BeautifulSoup primitives. -/
def Element.insertAdjacentElement (s : Store) (selfId : NodeId) (position : String)
    (el : NodeId) : Except DomError Store :=
  if position = "beforebegin" then bsInsertBefore s selfId el
  else if position = "afterbegin" then bsInsert s selfId 0 el
  else if position = "beforeend" then bsAppend s selfId el
  else if position = "afterend" then bsInsertAfter s selfId el
  else .error .invalidPosition

/-- BeautifulSoup `find(name)` (behind `soup.title`, `soup.head`,
`soup.html`): first element of that name in document (pre-order) order among
the descendants. -/
def findTagAux (s : Store) (nm : String) : Nat → List NodeId → Option NodeId
  | 0, _ => none
  | _ + 1, [] => none
  | fuel + 1, i :: rest =>
    match s.get i with
    | none => findTagAux s nm fuel rest
    | some n =>
      if n.kind = .element ∧ n.name = nm then some i
      else findTagAux s nm fuel (n.contents ++ rest)

def Document.findTag (s : Store) (root : NodeId) (nm : String) : Option NodeId :=
  findTagAux s nm (s.nodes.length + 1) (contentsOf s root)

/-- `Document.title` setter: if a `<title>` exists set its string; otherwise
create `<title>` (via `new_tag` plus the `.string` setter, i.e. clear then
append a fresh NavigableString), then append it to `<head>` if one exists,
else create `<head>`, put the title inside, and insert the head at index 0 of
`<html>` when an `<html>` element exists, else at index 0 of the soup
itself. -/
def Document.setTitle (s : Store) (root : NodeId) (value : String) :
    Except DomError Store :=
  match Document.findTag s root "title" with
  | some t =>
    let s1 := bsClear s t
    let r := newNode s1 { kind := .textN, text := value }
    bsInsert r.1 t (contentsOf r.1 t).length r.2
  | none =>
    let rT := newNode s { kind := .element, name := "title" }
    let s2 := bsClear rT.1 rT.2
    let rX := newNode s2 { kind := .textN, text := value }
    match bsInsert rX.1 rT.2 (contentsOf rX.1 rT.2).length rX.2 with
    | .error e => .error e
    | .ok s4 =>
      match Document.findTag s4 root "head" with
      | some h => bsAppend s4 h rT.2
      | none =>
        let rH := newNode s4 { kind := .element, name := "head" }
        match bsAppend rH.1 rH.2 rT.2 with
        | .error e => .error e
        | .ok s6 =>
          match Document.findTag s6 root "html" with
          | some ht => bsInsert s6 ht 0 rH.2
          | none => bsInsert s6 root 0 rH.2

/-- Attribute rendering for serialization. -/
def serializeAttrs (l : List (String × String)) : String :=
  l.foldl (fun acc kv => acc ++ " " ++ kv.1 ++ "=" ++ "\"" ++ kv.2 ++ "\"") ""

/-- Textual reconstruction of a subtree, as `str(tag)` produces for the simple
trees exercised here (a `[document]` node renders only its children). -/
def serializeNode (s : Store) : Nat → NodeId → String
  | 0, _ => ""
  | fuel + 1, i =>
    match s.get i with
    | none => ""
    | some n =>
      match n.kind with
      | .textN => n.text
      | .element =>
        let inner := n.contents.foldl (fun acc c => acc ++ serializeNode s fuel c) ""
        if n.name = "[document]" then inner
        else "<" ++ n.name ++ serializeAttrs n.attrs ++ ">" ++ inner ++ "</" ++ n.name ++ ">"

/-- Python `str.split(c)` for a single-character separator, over the
character list of the string (empty pieces are kept, as in Python). -/
def splitOnChar (c : Char) : List Char → List (List Char)
  | [] => [[]]
  | x :: t =>
    let r := splitOnChar c t
    if x = c then [] :: r
    else
      match r with
      | h :: t2 => (x :: h) :: t2
      | [] => [[x]]

def isSpaceChar (c : Char) : Bool :=
  c = ' ' || c = '\t' || c = '\n' || c = '\r'

/-- Python `str.strip()`. -/
def pyStrip (l : List Char) : List Char :=
  ((l.dropWhile isSpaceChar).reverse.dropWhile isSpaceChar).reverse

/-- Python dict assignment `d[k] = v`: overwrite in place if the key exists,
else append (insertion order preserved). -/
def dictPut (d : List (String × String)) (k v : String) : List (String × String) :=
  match d with
  | [] => [(k, v)]
  | kv :: t => if kv.1 = k then (kv.1, v) :: t else kv :: dictPut t k v

/-- The style-seeding loop of `Element.__init__`: for each `;`-separated
segment whose strip is nonempty, `key, value = s.split(":")` — a two-element
unpacking that raises ValueError unless the split has exactly two parts —
then `_style[key.strip()] = value.strip()`. -/
def parseStyleAux : List (List Char) → List (String × String) →
    Except DomError (List (String × String))
  | [], acc => .ok acc
  | seg :: rest, acc =>
    if pyStrip seg = [] then parseStyleAux rest acc
    else
      match splitOnChar ':' seg with
      | [k, v] =>
        parseStyleAux rest (dictPut acc (String.mk (pyStrip k)) (String.mk (pyStrip v)))
      | _ => .error .valueErr

def parseStyle (v : String) : Except DomError (List (String × String)) :=
  parseStyleAux (splitOnChar ';' v.data) []

/-- An event listener callback, with enough expressive power to observe
dispatch: log a value, add a listener for an event, or remove one.  Equality
of callbacks stands for Python function identity. -/
inductive Callback where
  | log (n : Nat)
  | addL (event : String) (cb : Callback)
  | removeL (event : String) (cb : Callback)
deriving DecidableEq, Repr

/-- An `Element` wrapper object: `Element.__init__` stores the wrapped tag and
creates a FRESH `_events = {}` and a `_style` dict seeded by parsing the
node's current `style` attribute. -/
structure ElementW where
  nodeId : NodeId
  style : List (String × String)
  events : List (String × List Callback)
deriving DecidableEq, Repr

/-- `Element(tag)`: wrap a node, seeding the style dict (which can raise) and
an empty event registry. -/
def wrapElement (s : Store) (i : NodeId) : Except DomError ElementW :=
  match s.get i with
  | none => .error .typeErr
  | some n =>
    match n.attrs.lookup "style" with
    | none => .ok ⟨i, [], []⟩
    | some sv =>
      match parseStyle sv with
      | .ok st => .ok ⟨i, st, []⟩
      | .error e => .error e

/-- Dict assignment on the event registry. -/
def dictSetE (d : List (String × List Callback)) (k : String) (v : List Callback) :
    List (String × List Callback) :=
  match d with
  | [] => [(k, v)]
  | kv :: t => if kv.1 = k then (kv.1, v) :: t else kv :: dictSetE t k v

/-- `Element.addEventListener`: create the list if absent, then append. -/
def Element.addEventListener (el : ElementW) (ev : String) (cb : Callback) : ElementW :=
  { el with events := dictSetE el.events ev (((el.events.lookup ev).getD []) ++ [cb]) }

/-- `Element.removeEventListener`: rebind the event's entry to a new filtered
list (all occurrences equal to the callback removed). -/
def Element.removeEventListener (el : ElementW) (ev : String) (cb : Callback) : ElementW :=
  match el.events.lookup ev with
  | none => el
  | some l => { el with events := dictSetE el.events ev (l.filter (fun x => x != cb)) }

/-- State during a dispatch: the `_events` dict and the trace of `(logged
value, argument)` pairs produced so far. -/
structure DState where
  events : List (String × List Callback)
  trace : List (Nat × Nat)
deriving DecidableEq, Repr

/-- Run one callback during dispatch of `ev` with argument `arg`.  `live` is
the list object the in-progress `for` loop iterates (`self._events[event]` as
read at loop entry) and `al` records whether the dict entry for `ev` is still
that same object: `addEventListener` appends to the dict entry in place (so
the live list grows when still aliased), while `removeEventListener` REBINDS
the dict entry to a fresh filtered list, breaking the aliasing and leaving
the live list untouched. -/
def runCallback (ev : String) (arg : Nat) (cb : Callback) (st : DState)
    (live : List Callback) (al : Bool) : DState × List Callback × Bool :=
  match cb with
  | .log n => ({ st with trace := st.trace ++ [(n, arg)] }, live, al)
  | .addL e c =>
    ({ st with events := dictSetE st.events e (((st.events.lookup e).getD []) ++ [c]) },
      if e == ev && al then live ++ [c] else live, al)
  | .removeL e c =>
    match st.events.lookup e with
    | none => (st, live, al)
    | some l =>
      ({ st with events := dictSetE st.events e (l.filter (fun x => x != c)) }, live,
        if e == ev then false else al)

/-- The `for callback in self._events[event]` loop of `triggerEvent`:
index-based iteration over the live list, which callbacks may grow. -/
def dispatchLoop (ev : String) (arg : Nat) :
    Nat → DState → List Callback → Bool → Nat → DState
  | 0, st, _, _, _ => st
  | fuel + 1, st, live, al, i =>
    if h : i < live.length then
      dispatchLoop ev arg fuel
        (runCallback ev arg (live.get ⟨i, h⟩) st live al).1
        (runCallback ev arg (live.get ⟨i, h⟩) st live al).2.1
        (runCallback ev arg (live.get ⟨i, h⟩) st live al).2.2 (i + 1)
    else st

/-- `Element.triggerEvent`: if the event has an entry, iterate its (live)
listener list invoking each callback.  `fuel` bounds the iteration; any value
at least the number of iterations the Python loop performs is exact. -/
def Element.triggerEvent (el : ElementW) (ev : String) (arg : Nat) (fuel : Nat) :
    ElementW × List (Nat × Nat) :=
  match el.events.lookup ev with
  | none => (el, [])
  | some live =>
    ({ el with events := (dispatchLoop ev arg fuel ⟨el.events, []⟩ live true 0).events },
      (dispatchLoop ev arg fuel ⟨el.events, []⟩ live true 0).trace)

/-- Modelled from the spec: snapshot-semantics dispatch ("listeners added or
removed during dispatch do not affect the in-progress dispatch"), used as the
reference to compare `triggerEvent` against.  It invokes exactly the
listeners registered at call time, in order. -/
def snapGo (ev : String) (arg : Nat) : List Callback → DState → DState
  | [], st => st
  | cb :: rest, st => snapGo ev arg rest (runCallback ev arg cb st [] false).1

/-- Modelled from the spec: the snapshot-semantics version of trigger. -/
def snapshotTrigger (el : ElementW) (ev : String) (arg : Nat) :
    ElementW × List (Nat × Nat) :=
  match el.events.lookup ev with
  | none => (el, [])
  | some l =>
    ({ el with events := (snapGo ev arg l ⟨el.events, []⟩).events },
      (snapGo ev arg l ⟨el.events, []⟩).trace)

/-! Invariants and specification-level notions used to state the claims. -/

/-- The parent/child symmetry invariant of the spec: for every two nodes of
the tree, `parent(n) == p ⇔ n ∈ children(p)`. -/
def SymInv (s : Store) : Prop :=
  ∀ i ∈ s.ids, ∀ j ∈ s.ids, (parentOf s i = some j ↔ i ∈ contentsOf s j)

/-- Well-formedness of a store, as guaranteed for trees built by parsing:
distinct ids below `nextId`, duplicate-free child lists, children and parents
known to the store, and the parent/child symmetry in both directions (with no
node its own parent). -/
def Wf (s : Store) : Prop :=
  s.ids.Nodup ∧
  ∀ j ∈ s.ids,
    j < s.nextId ∧ (contentsOf s j).Nodup ∧
    (∀ c ∈ contentsOf s j, c ∈ s.ids ∧ parentOf s c = some j) ∧
    ∀ q ∈ (parentOf s j).toList, q ∈ s.ids ∧ q ≠ j ∧ j ∈ contentsOf s q

/-- A chain of parent steps: `chainP f x l y` says that starting at `x` and
repeatedly taking parents through the intermediate nodes `l` one reaches
`y`. -/
def chainP (f : NodeId → Option NodeId) : NodeId → List NodeId → NodeId → Prop
  | x, [], y => f x = some y
  | x, z :: l, y => f x = some z ∧ chainP f z l y

/-- Acyclicity of a parent map: no node reaches itself by parent steps, i.e.
no node is its own ancestor. -/
def AcyclicP (f : NodeId → Option NodeId) : Prop := ∀ x l, ¬ chainP f x l x

/-- Acyclicity of the tree of a store. -/
def Acyclic (s : Store) : Prop := AcyclicP (parentOf s)

/-- `y` is a strict ancestor of `x`. -/
def Reaches (f : NodeId → Option NodeId) (x y : NodeId) : Prop :=
  ∃ l, chainP f x l y

/-- After a successful insertion the moved node sits exactly once under its
new parent and under no other node: it was relocated, not duplicated. -/
def Relocated (s' : Store) (p c : NodeId) : Prop :=
  parentOf s' c = some p ∧ (contentsOf s' p).count c = 1 ∧
  ∀ r, r ≠ p → c ∉ contentsOf s' r

/-- What fragment allocation preserves: ids stay below `nextId`, `nextId`
grows, nodes below a bound `B` are untouched, child lists whose entries were
at least `B` keep that property, and existing child lists are only ever
appended to. -/
def AllocPres (B : NodeId) (s R : Store) : Prop :=
  (∀ j, ((R.get j).isSome = true) → j < R.nextId) ∧
  s.nextId ≤ R.nextId ∧
  (∀ j, j < B → R.get j = s.get j) ∧
  (∀ x, (∀ d ∈ contentsOf s x, B ≤ d) → ∀ c ∈ contentsOf R x, B ≤ c) ∧
  (∀ x, contentsOf s x <+: contentsOf R x)

/-- A callback that does not register a listener for the given event (it may
log, remove listeners, or add listeners for other events). -/
def noAddTo (ev : String) : Callback → Bool
  | .addL e _ => e != ev
  | _ => true

/-- The contribution of one `;`-separated style segment: skipped when blank,
the single-colon split with both sides stripped otherwise (none when the
colon count differs from one). -/
def styleSeg (seg : List Char) : Option (String × String) :=
  if pyStrip seg = [] then none
  else
    match splitOnChar ':' seg with
    | [k, v] => some (String.mk (pyStrip k), String.mk (pyStrip v))
    | _ => none

/-- The style entries a `style` attribute denotes when every nonblank segment
has exactly one colon: first-colon split, both sides stripped, in segment
order. -/
def styleEntries (sv : String) : List (String × String) :=
  (splitOnChar ';' sv.data).filterMap styleSeg

/-! Concrete stores used as inputs for the individual claims. -/

/-- C1 input: `<div><a></a></div>` (ids 1, 2) plus a detached `<b>` (id 3). -/
def sC1 : Store :=
  ⟨[(1, { name := "div", contents := [2] }),
    (2, { name := "a", parent := some 1 }),
    (3, { name := "b" })], 4⟩

/-- C1 result of `replaceChild(<b>, <a>)` on the div: the raw list assignment
puts 3 into the child list but leaves 2's parent pointer and 3's absent
parent pointer untouched. -/
def sC1res : Store :=
  ⟨[(1, { name := "div", contents := [3] }),
    (2, { name := "a", parent := some 1 }),
    (3, { name := "b" })], 4⟩

/-- C2 input: an empty `<div>` (id 0). -/
def sC2 : Store := ⟨[(0, { name := "div" })], 1⟩

/-- C2 result of `innerHTML = "<a></a><b></b>"`: only `<a>` (id 2) was moved
in; `<b>` (id 3) is still attached to the parse fragment (id 1). -/
def sC2res : Store :=
  ⟨[(0, { name := "div", contents := [2] }),
    (1, { name := "[document]", contents := [3] }),
    (2, { name := "a", parent := some 0 }),
    (3, { name := "b", parent := some 1 })], 4⟩

/-- C5 input: `<div><span></span></div>` (div 1, span 2). -/
def sC5 : Store :=
  ⟨[(1, { name := "div", contents := [2] }),
    (2, { name := "span", parent := some 1 })], 3⟩

/-- C5 result of `span.appendChild(div)`: the parent pointers now form the
cycle 1 → 2 → 1. -/
def sC5res : Store :=
  ⟨[(1, { name := "div", contents := [2], parent := some 2 }),
    (2, { name := "span", parent := some 1, contents := [1] })], 3⟩

/-- C6 input: `<div><i></i></div>` (ids 1, 2), a detached `<i>` (id 3)
structurally equal to the child but not a child, and a detached `<x>`
(id 4). -/
def sC6 : Store :=
  ⟨[(1, { name := "div", contents := [2] }),
    (2, { name := "i", parent := some 1 }),
    (3, { name := "i" }),
    (4, { name := "x" })], 5⟩

/-- C6 result: `insertBefore(<x>, id 3)` succeeded although id 3 is not a
child of the div — the structural search matched child id 2. -/
def sC6res : Store :=
  ⟨[(1, { name := "div", contents := [4, 2] }),
    (2, { name := "i", parent := some 1 }),
    (3, { name := "i" }),
    (4, { name := "x", parent := some 1 })], 5⟩

/-- C7 input a: an `<html></html>` document (soup 0, html 1). -/
def sC7a : Store :=
  ⟨[(0, { name := "[document]", contents := [1] }),
    (1, { name := "html", parent := some 0 })], 2⟩

/-- C7 result a: `<html><head><title>T</title></head></html>` (title 2,
text 3, head 4). -/
def sC7aRes : Store :=
  ⟨[(0, { name := "[document]", contents := [1] }),
    (1, { name := "html", contents := [4], parent := some 0 }),
    (2, { name := "title", contents := [3], parent := some 4 }),
    (3, { kind := .textN, text := "T", parent := some 2 }),
    (4, { name := "head", contents := [2], parent := some 1 })], 5⟩

/-- C7 input b: a document with no `<html>` element at all: `<p></p>` under
the soup root. -/
def sC7b : Store :=
  ⟨[(0, { name := "[document]", contents := [1] }),
    (1, { name := "p", parent := some 0 })], 2⟩

/-- C7 result b: the head lands directly under the soup root before the
`<p>`; no `<html>` element is created anywhere. -/
def sC7bRes : Store :=
  ⟨[(0, { name := "[document]", contents := [4, 1] }),
    (1, { name := "p", parent := some 0 }),
    (2, { name := "title", contents := [3], parent := some 4 }),
    (3, { kind := .textN, text := "T", parent := some 2 }),
    (4, { name := "head", contents := [2], parent := some 0 })], 5⟩

/-- C7 input c: `<html><head></head><body></body></html>` — head exists, no
title. -/
def sC7c : Store :=
  ⟨[(0, { name := "[document]", contents := [1] }),
    (1, { name := "html", contents := [2, 3], parent := some 0 }),
    (2, { name := "head", parent := some 1 }),
    (3, { name := "body", parent := some 1 })], 4⟩

/-- C7 result c: the new title is appended into the existing head. -/
def sC7cRes : Store :=
  ⟨[(0, { name := "[document]", contents := [1] }),
    (1, { name := "html", contents := [2, 3], parent := some 0 }),
    (2, { name := "head", contents := [4], parent := some 1 }),
    (3, { name := "body", parent := some 1 }),
    (4, { name := "title", contents := [5], parent := some 2 }),
    (5, { kind := .textN, text := "T", parent := some 4 })], 6⟩

/-- C9 input: a parentless `<div>` (id 0). -/
def sC9 : Store := ⟨[(0, { name := "div" })], 1⟩

/-- C4 input: a `<div>` whose `style` attribute value contains a URL, i.e. a
segment with more than one colon. -/
def sC4 : Store :=
  ⟨[(0, { name := "div", attrs := [("style", "background: url(http://x)")] })], 1⟩

/-- C4 witness input: a `<div>` with a two-property style attribute whose
segments each contain exactly one colon. -/
def sC4w : Store :=
  ⟨[(0, { name := "div", attrs := [("style", "color: red; background: blue")] })], 1⟩

/-- C6 witness input: `<div><a></a></div>` plus a detached `<z>` that is
structurally equal to no child, and a detached `<x>` to insert. -/
def sC6w : Store :=
  ⟨[(1, { name := "div", contents := [2] }),
    (2, { name := "a", parent := some 1 }),
    (3, { name := "z" }),
    (4, { name := "x" })], 5⟩

/-- C3 input: a single `<div>` node (id 5) that gets wrapped twice. -/
def sC3 : Store := ⟨[(5, { name := "div" })], 6⟩

/-- C8 input: one registered click listener which, when invoked, registers
another click listener `log 9`. -/
def elC8 : ElementW := ⟨0, [], [("click", [.addL "click" (.log 9)])]⟩

/-- C8 witness input: a click listener that removes the later listener
`log 1` during dispatch, followed by that listener. -/
def elC8b : ElementW := ⟨0, [], [("click", [.removeL "click" (.log 1), .log 1])]⟩

/-- C10 input: `<div><u></u><i></i><v></v><i></i></div>` (ids 2 3 4 5 under
1) with a detached `<x>` (id 6); the second `<i>` (id 5) is the reference
child handed to `insertBefore`/`replaceChild`, while the first `<i>` (id 3)
is an earlier, structurally identical sibling. -/
def sC10 : Store :=
  ⟨[(1, { name := "div", contents := [2, 3, 4, 5] }),
    (2, { name := "u", parent := some 1 }),
    (3, { name := "i", parent := some 1 }),
    (4, { name := "v", parent := some 1 }),
    (5, { name := "i", parent := some 1 }),
    (6, { name := "x" })], 7⟩

/-- Store for the C5 witness: a detached `<div>` (id 0) and a detached `<p>`
(id 1). -/
def sC5w : Store := ⟨[(0, { name := "div" }), (1, { name := "p" })], 2⟩

/-- Result of `appendChild` on `sC5w`: the `<p>` relocated under the
`<div>`. -/
def sC5wRes : Store :=
  ⟨[(0, { name := "div", contents := [1] }), (1, { name := "p", parent := some 0 })], 2⟩

deriving instance DecidableEq for Except

instance (s : Store) : Decidable (SymInv s) := by
  unfold SymInv; infer_instance

instance (s : Store) : Decidable (Wf s) := by
  unfold Wf; infer_instance

/-! Theorems settling the claims, with their supporting lemmas. -/

/-- Walking a parent chain strictly decreases any grading of the parent
map. -/
theorem chainP_graded (f : NodeId → Option NodeId) (d : NodeId → Nat)
    (hd : ∀ a b, f a = some b → d b < d a) :
    ∀ l x y, chainP f x l y → d y < d x
  | [], x, y, h => hd x y h
  | z :: t, x, y, h => lt_trans (chainP_graded f d hd t z y h.2) (hd x z h.1)

/-- A parent map admitting a strictly decreasing grading is acyclic. -/
theorem acyclicP_of_graded (f : NodeId → Option NodeId) (d : NodeId → Nat)
    (hd : ∀ a b, f a = some b → d b < d a) : AcyclicP f :=
  fun x l hc => absurd (chainP_graded f d hd l x x hc) (lt_irrefl _)

/-- A successful lookup means the key is among the stored ids. -/
theorem lookupN_some_mem {l : List (NodeId × Node)} {i : NodeId} {n : Node}
    (h : lookupN l i = some n) : i ∈ l.map Prod.fst := by
  induction l with
  | nil => cases h
  | cons kv t ih =>
    unfold lookupN at h
    by_cases hk : kv.1 = i
    · simp [hk]
    · rw [if_neg hk] at h
      simpa using Or.inr (ih h)

theorem parentOf_some_mem {s : Store} {a b : NodeId} (h : parentOf s a = some b) :
    a ∈ s.ids := by
  unfold parentOf Store.get at h
  cases hg : lookupN s.nodes a with
  | none => rw [hg] at h; cases h
  | some n => exact lookupN_some_mem hg

/-- Decidable sufficient condition for acyclicity of a concrete store: every
parent id is smaller than its child's id. -/
theorem acyclic_of_parent_lt (s : Store)
    (h : ∀ a ∈ s.ids, ∀ b ∈ (parentOf s a).toList, b < a) : Acyclic s :=
  acyclicP_of_graded _ (fun x => x) (fun a b hab =>
    h a (parentOf_some_mem hab) b (by simp [hab]))

/-- C1 (code bug): on the tree `<div><a></a></div>` with a detached `<b>`,
`replaceChild(<b>, <a>)` succeeds but leaves a store violating the
parent/child symmetry `parent(n) == p ⇔ n ∈ children(p)`: the raw list
assignment `self.tag.contents[index] = new_child.tag` puts `<b>` into the
div's children without setting its parent, and leaves `<a>`'s parent pointing
at the div although `<a>` is no longer among its children. -/
theorem C1_replaceChild_breaks_symmetry :
    SymInv sC1 ∧ Wf sC1 ∧
    Element.replaceChild sC1 1 3 2 = .ok sC1res ∧
    ¬ SymInv sC1res ∧
    parentOf sC1res 2 = some 1 ∧ 2 ∉ contentsOf sC1res 1 ∧
    3 ∈ contentsOf sC1res 1 ∧ parentOf sC1res 3 = none := by decide

/-- C2 (code bug): setting `innerHTML` of an empty `<div>` to the fragment
`<a></a><b></b>` inserts only `<a>`: the loop iterates the fragment's live
child list while `append` extracts each appended child from it, so every
other top-level node is skipped — `<b>` stays attached to the parse
fragment (node 1) and never becomes a child of the div. -/
theorem C2_setInnerHTML_drops_second_node :
    Element.setInnerHTML sC2 0 [.pelem "a" [] [], .pelem "b" [] []] = .ok sC2res ∧
    contentsOf sC2res 0 = [2] ∧
    (sC2res.get 2).map Node.name = some "a" ∧
    (sC2res.get 3).map Node.name = some "b" ∧
    3 ∉ contentsOf sC2res 0 ∧ parentOf sC2res 3 = some 1 := by decide

/-- C5 counterexample: appending a node into its own descendant is accepted
and produces a cycle: with `<div><span></span></div>`, `span.appendChild(div)`
succeeds and afterwards the div (node 1) is its own ancestor via the parent
chain 1 → 2 → 1, refuting the claim that every structural mutation preserves
acyclicity. -/
theorem C5_insert_into_descendant_cycle :
    parentOf sC5 2 = some 1 ∧ Acyclic sC5 ∧
    Element.appendChild sC5 2 1 = .ok sC5res ∧
    chainP (parentOf sC5res) 1 [2] 1 ∧ ¬ Acyclic sC5res :=
  ⟨by decide, acyclic_of_parent_lt sC5 (by decide), by decide, ⟨rfl, rfl⟩,
    fun h => h 1 [2] ⟨rfl, rfl⟩⟩

/-- C6 counterexample: node 3 is a detached `<i>` that is NOT a child of the
`<div>` (node 1), yet `insertBefore(<x>, node 3)` succeeds because the
`list.index` search compares by BeautifulSoup structural equality and matches
the structurally identical child node 2, so the new node is inserted at that
child's position instead of failing with the NotFoundError-class error the
claim requires. -/
theorem C6_struct_equal_nonchild_succeeds :
    3 ∉ contentsOf sC6 1 ∧
    Element.insertBefore sC6 1 4 3 = .ok sC6res ∧
    contentsOf sC6res 1 = [4, 2] := by decide

/-- A child list none of whose members is structurally equal to the sought
node makes the Python `list.index` search fail. -/
theorem structIndexAux_none (s : Store) (x : NodeId) :
    ∀ l : List NodeId, (∀ c ∈ l, nodeEq s (structFuel s) c x = false) →
      structIndexAux s x l = none := by
  intro l
  induction l with
  | nil => intro _; rfl
  | cons c t ih =>
    intro h
    unfold structIndexAux
    simp [h c (List.mem_cons_self c t), ih (fun d hd => h d (List.mem_cons_of_mem c hd))]

/-- C6 amended: `insertBefore(p, newChild, refChild)` fails with the
NotFoundError-class error (the ValueError of `list.index`) precisely when no
current child of `p` is structurally equal to `refChild` — the lookup is by
BeautifulSoup structural equality, not identity, so a refChild that is not a
child but is structurally equal to one does not fail; on failure nothing has
been mutated, so the tree is unchanged. -/
theorem C6_insertBefore_notFound (s : Store) (p n r : NodeId)
    (h : ∀ c ∈ contentsOf s p, nodeEq s (structFuel s) c r = false) :
    Element.insertBefore s p n r = .error .notFound := by
  unfold Element.insertBefore
  rw [structIndexAux_none s r (contentsOf s p) h]

/-- C6 witness: inserting before a detached `<z>` that matches no child of
the `<div>` fails with the NotFoundError-class error. -/
theorem C6_insertBefore_notFound_witness :
    Element.insertBefore sC6w 1 4 3 = .error .notFound :=
  C6_insertBefore_notFound sC6w 1 4 3 (by decide)

/-- Python dict assignment appends when the key is fresh. -/
theorem dictPut_append (d : List (String × String)) (k v : String)
    (hk : ∀ kv ∈ d, kv.1 ≠ k) : dictPut d k v = d ++ [(k, v)] := by
  induction d with
  | nil => rfl
  | cons kv t ih =>
    unfold dictPut
    rw [if_neg (hk kv (List.mem_cons_self kv t))]
    rw [ih (fun x hx => hk x (List.mem_cons_of_mem kv hx))]
    rfl

/-- The style-seeding loop succeeds and produces exactly the single-colon
splits when every nonblank segment has exactly one colon and the keys are
distinct. -/
theorem parseStyleAux_ok :
    ∀ (segs : List (List Char)) (acc : List (String × String)),
      (∀ seg ∈ segs, pyStrip seg ≠ [] → (splitOnChar ':' seg).length = 2) →
      ((segs.filterMap styleSeg).map Prod.fst).Nodup →
      (∀ kv ∈ acc, ∀ kw ∈ segs.filterMap styleSeg, kv.1 ≠ kw.1) →
      parseStyleAux segs acc = .ok (acc ++ segs.filterMap styleSeg) := by
  intro segs
  induction segs with
  | nil => intro acc _ _ _; simp [parseStyleAux]
  | cons seg rest ih =>
    intro acc hshape hnd hdisj
    by_cases hblank : pyStrip seg = []
    · have hfm : (seg :: rest).filterMap styleSeg = rest.filterMap styleSeg := by
        simp [List.filterMap_cons, styleSeg, hblank]
      rw [hfm] at hnd hdisj
      unfold parseStyleAux
      rw [if_pos hblank]
      rw [ih acc (fun sg hs => hshape sg (List.mem_cons_of_mem seg hs)) hnd hdisj]
      rw [hfm]
    · have hlen := hshape seg (List.mem_cons_self seg rest) hblank
      rcases hsp : splitOnChar ':' seg with _ | ⟨k, _ | ⟨v, _ | _⟩⟩ <;>
        rw [hsp] at hlen <;> try simp at hlen
      have hfm : (seg :: rest).filterMap styleSeg =
          (String.mk (pyStrip k), String.mk (pyStrip v)) :: rest.filterMap styleSeg := by
        simp [List.filterMap_cons, styleSeg, hblank, hsp]
      rw [hfm] at hnd hdisj
      unfold parseStyleAux
      rw [if_neg hblank, hsp]
      dsimp only
      have hput : dictPut acc (String.mk (pyStrip k)) (String.mk (pyStrip v)) =
          acc ++ [(String.mk (pyStrip k), String.mk (pyStrip v))] :=
        dictPut_append _ _ _ (fun kv hkv =>
          hdisj kv hkv _ (List.mem_cons_self _ _))
      rw [hput]
      simp only [List.map_cons, List.nodup_cons] at hnd
      rw [ih _ (fun sg hs => hshape sg (List.mem_cons_of_mem seg hs)) hnd.2 ?_]
      · rw [hfm]
        simp
      · intro kv hkv kw hkw
        rcases List.mem_append.1 hkv with hin | hone
        · exact hdisj kv hin kw (List.mem_cons_of_mem _ hkw)
        · have hkv2 : kv = (String.mk (pyStrip k), String.mk (pyStrip v)) := by
            simpa using hone
          subst hkv2
          intro heq
          have hm := List.mem_map_of_mem Prod.fst hkw
          rw [← heq] at hm
          exact hnd.1 hm

/-- C4 amended: wrapping a node succeeds when every nonblank segment of its
`style` attribute contains exactly ONE colon, yielding the mapping with each
segment split at that colon and both sides stripped (stated for distinct
property names); a segment with more than one colon — e.g. a URL value —
instead makes the wrap fail with a ValueError-class error, so such values are
not preserved. -/
theorem C4_single_colon_split (s : Store) (i : NodeId) (nd : Node) (sv : String)
    (hg : s.get i = some nd) (hsv : nd.attrs.lookup "style" = some sv)
    (hseg : ∀ seg ∈ splitOnChar ';' sv.data, pyStrip seg ≠ [] →
      (splitOnChar ':' seg).length = 2)
    (hkeys : ((styleEntries sv).map Prod.fst).Nodup) :
    wrapElement s i = .ok ⟨i, styleEntries sv, []⟩ := by
  have hps : parseStyle sv = .ok (styleEntries sv) := by
    unfold parseStyle styleEntries
    have h0 := parseStyleAux_ok (splitOnChar ';' sv.data) [] hseg hkeys (by simp)
    simpa using h0
  simp only [wrapElement, hg, hsv, hps]

/-- C4 witness: wrapping a node with style `color: red; background: blue`
succeeds with exactly that mapping. -/
theorem C4_single_colon_split_witness :
    wrapElement sC4w 0 = .ok ⟨0, styleEntries "color: red; background: blue", []⟩ ∧
    styleEntries "color: red; background: blue" =
      [("color", "red"), ("background", "blue")] :=
  ⟨C4_single_colon_split sC4w 0
      { name := "div", attrs := [("style", "color: red; background: blue")] }
      "color: red; background: blue" (by decide) (by decide) (by decide) (by decide),
    by decide⟩

/-- C7 counterexample: on a document with no `<html>` element, setting the
title creates `<head><title>T</title></head>` directly under the soup root —
no `<html>` element is created anywhere in the resulting store, refuting the
claim that the scaffolding `<html>` is still created. -/
theorem C7_no_html_scaffolding :
    Document.findTag sC7b 0 "html" = none ∧
    Document.setTitle sC7b 0 "T" = .ok sC7bRes ∧
    (∀ i ∈ sC7bRes.ids, (sC7bRes.get i).map Node.name ≠ some "html") ∧
    parentOf sC7bRes 4 = some 0 := by decide

/-- C7 amended: setting the title when no `<title>` exists creates a
`<title>` and, if absent, a `<head>`; the head becomes the first child of
`<html>` when an `<html>` element exists (in particular an empty
`<html></html>` document becomes `<html><head><title>T</title></head></html>`,
and an existing head is reused), but when no `<html>` element exists the head
is inserted as the first child of the document root and no `<html>` is
created. -/
theorem C7_title_scaffolding :
    (Document.setTitle sC7a 0 "T" = .ok sC7aRes ∧
      serializeNode sC7aRes 10 0 = "<html><head><title>T</title></head></html>") ∧
    (Document.setTitle sC7c 0 "T" = .ok sC7cRes ∧
      serializeNode sC7cRes 10 0 =
        "<html><head><title>T</title></head><body></body></html>") ∧
    (Document.setTitle sC7b 0 "T" = .ok sC7bRes ∧
      serializeNode sC7bRes 10 0 = "<head><title>T</title></head><p></p>" ∧
      contentsOf sC7bRes 0 = [4, 1] ∧
      (sC7bRes.get 4).map Node.name = some "head" ∧
      ∀ i ∈ sC7bRes.ids, (sC7bRes.get i).map Node.name ≠ some "html") := by decide

/-- C4 counterexample: wrapping a node whose `style` attribute contains a URL
value (a segment with more than one colon) does not succeed: the two-element
unpacking `key, value = s.split(":")` raises a ValueError, so `Element`
construction fails instead of preserving the value after the first colon. -/
theorem C4_wrap_fails_on_url_style :
    (sC4.get 0).map Node.attrs = some [("style", "background: url(http://x)")] ∧
    wrapElement sC4 0 = .error .valueErr := by decide

/-- C8 counterexample: with a single registered click listener that itself
registers a `log 9` click listener, dispatch invokes `log 9` during the same
trigger (trace `[(9, 7)]`), while snapshot semantics — the behaviour the
claim asserts — would invoke only the listeners registered at call time
(empty trace): added listeners do change the in-progress dispatch. -/
theorem C8_added_listener_invoked :
    elC8.events.lookup "click" = some [.addL "click" (.log 9)] ∧
    (Element.triggerEvent elC8 "click" 7 5).2 = [(9, 7)] ∧
    (snapshotTrigger elC8 "click" 7).2 = [] := by decide

/-- C3 counterexample: wrap node 5 twice.  A listener registered through the
first handle fires when triggered through that same handle, but triggering
through the second, freshly wrapped handle invokes nothing — the registry
lives on the wrapper (`self._events = {}` in `Element.__init__`), not on the
shared node, refuting the claim that a listener registered via h1 is invoked
when the event is triggered via h2. -/
theorem C3_listener_not_shared_across_handles :
    ∃ h1, wrapElement sC3 5 = .ok h1 ∧
      (Element.triggerEvent (Element.addEventListener h1 "click" (.log 0)) "click" 7 5).2
        = [(0, 7)] ∧
      (Element.triggerEvent h1 "click" 7 5).2 = [] :=
  ⟨⟨5, [], []⟩, by decide, by decide, by decide⟩

/-- C3 amended: the event registry is per Element wrapper, not per underlying
node: every freshly wrapped handle starts with an empty registry, a listener
registered on a handle is invoked (with the arguments passed through) when
the event is triggered through that same handle, and triggering through the
fresh handle itself invokes nothing, whatever was registered on other handles
of the same node. -/
theorem C3_events_per_handle (s : Store) (i : NodeId) (ev : String) (n arg fuel : Nat)
    (h : ElementW) (hw : wrapElement s i = .ok h) :
    h.events = [] ∧
    (Element.triggerEvent (Element.addEventListener h ev (.log n)) ev arg 1).2 = [(n, arg)] ∧
    (Element.triggerEvent h ev arg fuel).2 = [] := by
  have hev : h.events = [] := by
    unfold wrapElement at hw
    split at hw
    · cases hw
    · split at hw
      · cases hw; rfl
      · split at hw
        · cases hw; rfl
        · cases hw
  obtain ⟨nid, st, evs⟩ := h
  simp only at hev
  subst hev
  refine ⟨rfl, ?_, ?_⟩
  · simp [Element.addEventListener, Element.triggerEvent, dictSetE, dispatchLoop,
      runCallback, List.lookup]
  · simp [Element.triggerEvent, List.lookup]

/-- C3 witness: the per-handle theorem applied to the concrete store. -/
theorem C3_events_per_handle_witness :
    (⟨5, [], []⟩ : ElementW).events = [] ∧
    (Element.triggerEvent (Element.addEventListener ⟨5, [], []⟩ "click" (.log 0)) "click" 7 1).2
      = [(0, 7)] ∧
    (Element.triggerEvent (⟨5, [], []⟩ : ElementW) "click" 7 3).2 = [] :=
  C3_events_per_handle sC3 5 "click" 0 7 3 ⟨5, [], []⟩ (by decide)

/-- Running one callback yields the same dictionary-and-trace state whatever
the live list and aliasing flag (they influence only the live list). -/
theorem runCallback_state_eq (ev : String) (arg : Nat) (cb : Callback) (st : DState)
    (live live' : List Callback) (al al' : Bool) :
    (runCallback ev arg cb st live al).1 = (runCallback ev arg cb st live' al').1 := by
  cases cb with
  | log n => rfl
  | addL e c => rfl
  | removeL e c =>
    unfold runCallback
    cases hx : st.events.lookup e <;> simp [hx]

/-- A callback that does not add a listener for the dispatched event leaves
the live list untouched (removal rebinds the dictionary entry to a fresh
list, so it never shrinks the live list either). -/
theorem runCallback_live_of_noAdd (ev : String) (arg : Nat) (cb : Callback) (st : DState)
    (live : List Callback) (al : Bool) (hno : noAddTo ev cb = true) :
    (runCallback ev arg cb st live al).2.1 = live := by
  cases cb with
  | log n => rfl
  | addL e c =>
    have he : (e == ev) = false := by
      simp [noAddTo] at hno
      simp [hno]
    simp [runCallback, he]
  | removeL e c =>
    unfold runCallback
    cases hx : st.events.lookup e <;> simp [hx]

/-- When no listener adds to the dispatched event, the live loop coincides
with snapshot dispatch of the remaining suffix. -/
theorem dispatchLoop_eq_snapGo (ev : String) (arg : Nat) :
    ∀ (fuel : Nat) (L : List Callback) (st : DState) (al : Bool) (i : Nat),
      (∀ cb ∈ L, noAddTo ev cb = true) → L.length ≤ i + fuel →
      dispatchLoop ev arg fuel st L al i = snapGo ev arg (L.drop i) st := by
  intro fuel
  induction fuel with
  | zero =>
    intro L st al i hno hlen
    have hd : L.drop i = [] := List.drop_eq_nil_of_le (by simpa using hlen)
    simp [dispatchLoop, hd, snapGo]
  | succ fuel ih =>
    intro L st al i hno hlen
    unfold dispatchLoop
    by_cases h : i < L.length
    · rw [dif_pos h]
      have hmem : L.get ⟨i, h⟩ ∈ L := L.get_mem _ _
      have hlive := runCallback_live_of_noAdd ev arg (L.get ⟨i, h⟩) st L al (hno _ hmem)
      rw [hlive]
      have hrec := ih L (runCallback ev arg (L.get ⟨i, h⟩) st L al).1
        (runCallback ev arg (L.get ⟨i, h⟩) st L al).2.2 (i + 1) hno
        (by omega)
      rw [hrec]
      have hdrop : L.drop i = L.get ⟨i, h⟩ :: L.drop (i + 1) :=
        List.drop_eq_getElem_cons h
      rw [hdrop]
      show snapGo ev arg (L.drop (i+1)) _ = snapGo ev arg (L.drop (i+1)) _
      rw [runCallback_state_eq ev arg _ st L [] al false]
    · rw [dif_neg h]
      have hd : L.drop i = [] := List.drop_eq_nil_of_le (by omega)
      simp [hd, snapGo]

/-- C8 amended: `triggerEvent` invokes the listeners registered at call time
in registration order, passing the argument through, and listeners removed
during dispatch (or added for other events) do not affect the in-progress
dispatch — the trigger agrees with snapshot semantics whenever no listener
adds a listener for the dispatched event; a listener added for the same
event during dispatch, however, is also invoked by the in-progress dispatch
(live-list semantics on the add side). -/
theorem C8_dispatch_snapshot_without_adds (el : ElementW) (ev : String) (arg fuel : Nat)
    (L : List Callback) (hl : el.events.lookup ev = some L)
    (hno : ∀ cb ∈ L, noAddTo ev cb = true) (hfuel : L.length ≤ fuel) :
    Element.triggerEvent el ev arg fuel = snapshotTrigger el ev arg := by
  unfold Element.triggerEvent snapshotTrigger
  rw [hl]
  dsimp only
  rw [dispatchLoop_eq_snapGo ev arg fuel L ⟨el.events, []⟩ true 0 hno (by omega)]
  simp

/-- C8 witness: an element whose first click listener removes the second one
during dispatch; the live dispatch still equals the snapshot dispatch and the
removed-but-snapshotted listener `log 1` is invoked. -/
theorem C8_dispatch_snapshot_without_adds_witness :
    Element.triggerEvent elC8b "click" 7 2 = snapshotTrigger elC8b "click" 7 ∧
    (Element.triggerEvent elC8b "click" 7 2).2 = [(1, 7)] :=
  ⟨C8_dispatch_snapshot_without_adds elC8b "click" 7 2 [.removeL "click" (.log 1), .log 1]
    (by decide) (by decide) (by decide), by decide⟩

/-- C9 counterexample: `insertAdjacentHTML` with position `beforebegin` (or
`afterend`) on a parentless node does NOT fail when the parsed fragment is
empty — the loop body never runs, so no InvalidStateError-class error is
raised, refuting the claim's unconditional failure. -/
theorem C9_empty_fragment_no_error :
    parentOf sC9 0 = none ∧
    (∃ s1, Element.insertAdjacentHTML sC9 0 "beforebegin" [] = .ok s1) ∧
    (∃ s2, Element.insertAdjacentHTML sC9 0 "afterend" [] = .ok s2) :=
  ⟨by decide, ⟨_, rfl⟩, ⟨_, rfl⟩⟩

/-- Updating a present key stores the new node under it. -/
theorem lookupN_upd_self : ∀ (l : List (NodeId × Node)) (i : NodeId) (n m : Node),
    lookupN l i = some m → lookupN (updN l i n) i = some n := by
  intro l i n m
  induction l with
  | nil => intro h; cases h
  | cons kv t ih =>
    intro h
    by_cases hk : kv.1 = i
    · simp [updN, lookupN, hk]
    · simp only [lookupN, if_neg hk] at h
      simp only [updN, if_neg hk, lookupN]
      exact ih h

/-- Updating one key leaves every other key's binding unchanged. -/
theorem lookupN_upd_ne (i : NodeId) (n : Node) (j : NodeId) (hj : j ≠ i) :
    ∀ (l : List (NodeId × Node)), lookupN (updN l i n) j = lookupN l j := by
  intro l
  induction l with
  | nil => rfl
  | cons kv t ih =>
    by_cases hk : kv.1 = i
    · simp only [updN, if_pos hk, lookupN]
      have h1 : ¬ (i = j) := fun he => hj he.symm
      have h2 : ¬ (kv.1 = j) := fun he => h1 (hk.symm.trans he)
      rw [if_neg h1, if_neg h2]
    · simp only [updN, if_neg hk, lookupN]
      by_cases hkj : kv.1 = j
      · rw [if_pos hkj, if_pos hkj]
      · rw [if_neg hkj, if_neg hkj]
        exact ih

theorem Store.get_set_self (s : Store) (i : NodeId) (n m : Node) (h : s.get i = some m) :
    (s.set i n).get i = some n :=
  lookupN_upd_self s.nodes i n m h

theorem Store.get_set_ne (s : Store) (i : NodeId) (n : Node) (j : NodeId) (hj : j ≠ i) :
    (s.set i n).get j = s.get j :=
  lookupN_upd_ne i n j hj s.nodes

/-- The structural index of a node over a child list whose prefix has no
structural match is the position of the first structurally equal entry. -/
theorem structIndexAux_append (s : Store) (x a : NodeId) (l1 l2 : List NodeId)
    (h1 : ∀ c ∈ l1, nodeEq s (structFuel s) c x = false)
    (ha : nodeEq s (structFuel s) a x = true) :
    structIndexAux s x (l1 ++ a :: l2) = some l1.length := by
  induction l1 with
  | nil => simp [structIndexAux, ha]
  | cons c t ih =>
    have hrest := ih (fun d hd => h1 d (List.mem_cons_of_mem c hd))
    simp [structIndexAux, h1 c (List.mem_cons_self c t), hrest]

theorem insertAt_append (n : NodeId) : ∀ (l1 t : List NodeId),
    insertAt l1.length n (l1 ++ t) = l1 ++ n :: t := by
  intro l1
  induction l1 with
  | nil => intro t; rfl
  | cons x u ih => intro t; simp [insertAt, ih t]

theorem set_append (n : NodeId) : ∀ (l1 : List NodeId) (a : NodeId) (t : List NodeId),
    (l1 ++ a :: t).set l1.length n = l1 ++ n :: t := by
  intro l1
  induction l1 with
  | nil => intro a t; rfl
  | cons x u ih => intro a t; simp [List.set, ih]

/-- Inserting a detached node at a position within bounds: the exact stores
produced by BeautifulSoup `insert`. -/
theorem bsInsert_detached (s : Store) (p pos i : NodeId) (np ni : Node)
    (hne : i ≠ p) (hp : s.get p = some np) (hi : s.get i = some ni)
    (hpar : ni.parent = none) (hle : pos ≤ np.contents.length) :
    bsInsert s p pos i = .ok ((s.set i { ni with parent := some p }).set p
      { np with contents := insertAt pos i np.contents }) := by
  unfold bsInsert
  rw [if_neg hne]
  simp only [hp, hi, hpar]
  rw [Nat.min_eq_left hle]
  rw [Store.get_set_ne s i { ni with parent := some p } p (fun he => hne he.symm)]
  simp only [hp]

/-- C10: `insertBefore` and `replaceChild` locate the reference/old child by
structural equality, not identity: when the parent's children are
`l1 ++ [a] ++ l2 ++ [r]` with `a` structurally equal to the given child `r`
and nothing in `l1` matching, `insertBefore(n, r)` inserts the new node
immediately BEFORE `a` (position `|l1|`) and `replaceChild(n, r)` replaces
`a` — in both cases `r` itself stays where it was. -/
theorem C10_structural_lookup (s : Store) (p n r a : NodeId) (l1 l2 : List NodeId)
    (np nn : Node)
    (hp : s.get p = some np) (hcont : np.contents = l1 ++ a :: (l2 ++ [r]))
    (hn : s.get n = some nn) (hnp : nn.parent = none) (hne : n ≠ p)
    (hl1 : ∀ c ∈ l1, nodeEq s (structFuel s) c r = false)
    (ha : nodeEq s (structFuel s) a r = true) :
    (∃ s1, Element.insertBefore s p n r = .ok s1 ∧
      contentsOf s1 p = l1 ++ n :: a :: (l2 ++ [r]) ∧ parentOf s1 n = some p) ∧
    (∃ s2, Element.replaceChild s p n r = .ok s2 ∧
      contentsOf s2 p = l1 ++ n :: (l2 ++ [r])) := by
  have hcof : contentsOf s p = l1 ++ a :: (l2 ++ [r]) := by
    simp only [contentsOf, hp]
    exact hcont
  have hidx : structIndexAux s r (contentsOf s p) = some l1.length := by
    rw [hcof]
    exact structIndexAux_append s r a l1 (l2 ++ [r]) hl1 ha
  have hle : l1.length ≤ np.contents.length := by
    rw [hcont]
    simp [List.length_append]
  constructor
  · unfold Element.insertBefore
    rw [hidx]
    dsimp only
    rw [bsInsert_detached s p l1.length n np nn hne hp hn hnp hle]
    refine ⟨_, rfl, ?_, ?_⟩
    · have hgp : ((s.set n { nn with parent := some p }).set p
          { np with contents := insertAt l1.length n np.contents }).get p =
          some { np with contents := insertAt l1.length n np.contents } :=
        Store.get_set_self _ p _ np
          (by rw [Store.get_set_ne s n _ p (fun he => hne he.symm)]; exact hp)
      simp only [contentsOf, hgp]
      rw [hcont]
      exact insertAt_append n l1 (a :: (l2 ++ [r]))
    · have hgn : ((s.set n { nn with parent := some p }).set p
          { np with contents := insertAt l1.length n np.contents }).get n =
          some { nn with parent := some p } := by
        rw [Store.get_set_ne _ p _ n hne]
        exact Store.get_set_self s n _ nn hn
      simp only [parentOf, hgn]
  · unfold Element.replaceChild
    rw [hidx, hp]
    refine ⟨_, rfl, ?_⟩
    have hgp : (s.set p { np with contents := np.contents.set l1.length n }).get p =
        some { np with contents := np.contents.set l1.length n } :=
      Store.get_set_self s p _ np hp
    simp only [contentsOf, hgp]
    rw [hcont]
    exact set_append n l1 a (l2 ++ [r])

/-- C10 witness: in `<div><u></u><i></i><v></v><i></i></div>`, inserting a
detached `<x>` before the SECOND `<i>` (id 5) lands before the first `<i>`
(id 3), and replacing the second `<i>` replaces the first. -/
theorem C10_structural_lookup_witness :
    (∃ s1, Element.insertBefore sC10 1 6 5 = .ok s1 ∧
      contentsOf s1 1 = [2] ++ 6 :: 3 :: ([4] ++ [5]) ∧ parentOf s1 6 = some 1) ∧
    (∃ s2, Element.replaceChild sC10 1 6 5 = .ok s2 ∧
      contentsOf s2 1 = [2] ++ 6 :: ([4] ++ [5])) :=
  C10_structural_lookup sC10 1 6 5 3 [2] [4]
    { name := "div", contents := [2, 3, 4, 5] } { name := "x" }
    (by decide) (by decide) (by decide) (by decide) (by decide) (by decide) (by decide)

theorem lookupN_append_ne (k : NodeId) (v : Node) (j : NodeId) (hj : j ≠ k) :
    ∀ l : List (NodeId × Node), lookupN (l ++ [(k, v)]) j = lookupN l j := by
  intro l
  induction l with
  | nil =>
    simp only [List.nil_append, lookupN]
    rw [if_neg (fun h => hj h.symm)]
  | cons kv t ih =>
    simp only [List.cons_append, lookupN]
    by_cases hk : kv.1 = j
    · rw [if_pos hk, if_pos hk]
    · rw [if_neg hk, if_neg hk]
      exact ih

theorem lookupN_append_of_none (k : NodeId) (v : Node) :
    ∀ l : List (NodeId × Node), lookupN l k = none → lookupN (l ++ [(k, v)]) k = some v := by
  intro l
  induction l with
  | nil => intro _; simp [lookupN]
  | cons kv t ih =>
    intro h
    simp only [lookupN] at h
    by_cases hk : kv.1 = k
    · rw [if_pos hk] at h; cases h
    · rw [if_neg hk] at h
      simp only [List.cons_append, lookupN]
      rw [if_neg hk]
      exact ih h

theorem updN_absent (i : NodeId) (n : Node) :
    ∀ l : List (NodeId × Node), lookupN l i = none → updN l i n = l := by
  intro l
  induction l with
  | nil => intro _; rfl
  | cons kv t ih =>
    intro h
    simp only [lookupN] at h
    by_cases hk : kv.1 = i
    · rw [if_pos hk] at h; cases h
    · rw [if_neg hk] at h
      simp only [updN, if_neg hk]
      rw [ih h]

theorem Store.set_absent (s : Store) (i : NodeId) (n : Node) (h : s.get i = none) :
    s.set i n = s := by
  unfold Store.set
  rw [updN_absent i n s.nodes h]

theorem get_newNode_ne (s : Store) (n : Node) (j : NodeId) (hj : j ≠ s.nextId) :
    (newNode s n).1.get j = s.get j :=
  lookupN_append_ne s.nextId n j hj s.nodes

theorem get_newNode_self (s : Store) (n : Node)
    (hdom : ∀ j, ((s.get j).isSome = true) → j < s.nextId) :
    (newNode s n).1.get s.nextId = some n := by
  have h0 : s.get s.nextId = none := by
    cases hg : s.get s.nextId with
    | none => rfl
    | some m =>
      exact absurd (hdom s.nextId (by rw [hg]; rfl)) (lt_irrefl _)
  exact lookupN_append_of_none s.nextId n s.nodes h0

theorem AllocPres.refl (B : NodeId) (s : Store)
    (hdom : ∀ j, ((s.get j).isSome = true) → j < s.nextId) : AllocPres B s s :=
  ⟨hdom, le_refl _, fun _ _ => rfl, fun _ hx c hc => hx c hc, fun _ => List.prefix_rfl⟩

theorem AllocPres.trans {B : NodeId} {s R R' : Store}
    (h1 : AllocPres B s R) (h2 : AllocPres B R R') : AllocPres B s R' := by
  obtain ⟨d1, m1, o1, b1, p1⟩ := h1
  obtain ⟨d2, m2, o2, b2, p2⟩ := h2
  exact ⟨d2, le_trans m1 m2, fun j hj => (o2 j hj).trans (o1 j hj),
    fun x hx c hc => b2 x (b1 x hx) c hc,
    fun x => (p1 x).trans (p2 x)⟩

theorem newNode_dom (s : Store) (n : Node)
    (hdom : ∀ j, ((s.get j).isSome = true) → j < s.nextId) :
    ∀ j, (((newNode s n).1.get j).isSome = true) → j < (newNode s n).1.nextId := by
  intro j hj
  by_cases hje : j = s.nextId
  · subst hje; exact Nat.lt_succ_self _
  · rw [get_newNode_ne s n j hje] at hj
    exact Nat.lt_succ_of_lt (hdom j hj)

theorem contentsOf_eq_of_get (s R : Store) (x : NodeId) (h : R.get x = s.get x) :
    contentsOf R x = contentsOf s x := by
  unfold contentsOf
  rw [h]

theorem attachFresh_pres (B : NodeId) (s : Store) (p : NodeId) (nd : Node)
    (hc : nd.contents = [])
    (hdom : ∀ j, ((s.get j).isSome = true) → j < s.nextId)
    (hB : B ≤ s.nextId) (hp : B ≤ p) :
    AllocPres B s (attachFresh s p nd) := by
  have hself := get_newNode_self s nd hdom
  have hdomN := newNode_dom s nd hdom
  have hcon : ∀ x, contentsOf (newNode s nd).1 x = contentsOf s x := by
    intro x
    by_cases hx : x = s.nextId
    · subst hx
      have h0 : s.get s.nextId = none := by
        cases hg : s.get s.nextId with
        | none => rfl
        | some m => exact absurd (hdom _ (by rw [hg]; rfl)) (lt_irrefl _)
      unfold contentsOf
      rw [hself, h0]
      dsimp only
      exact hc
    · exact contentsOf_eq_of_get _ _ _ (get_newNode_ne s nd x hx)
  unfold attachFresh
  cases hg : (newNode s nd).1.get p with
  | none =>
    refine ⟨hdomN, Nat.le_succ _, ?_, ?_, ?_⟩
    · intro j hj
      exact get_newNode_ne s nd j (ne_of_lt (lt_of_lt_of_le hj hB))
    · intro x hx c hcm
      rw [hcon x] at hcm
      exact hx c hcm
    · intro x
      rw [hcon x]
  | some pn =>
    have hplt : p < (newNode s nd).1.nextId := hdomN p (by rw [hg]; rfl)
    refine ⟨?_, Nat.le_succ _, ?_, ?_, ?_⟩
    · intro j hj
      by_cases hjp : j = p
      · subst hjp; exact hplt
      · rw [Store.get_set_ne _ p _ j hjp] at hj
        exact hdomN j hj
    · intro j hj
      have hjs : j ≠ s.nextId := ne_of_lt (lt_of_lt_of_le hj hB)
      have hjp : j ≠ p := ne_of_lt (lt_of_lt_of_le hj hp)
      rw [Store.get_set_ne _ p _ j hjp]
      exact get_newNode_ne s nd j hjs
    · intro x hx c hcm
      by_cases hxp : x = p
      · subst hxp
        have hgx : ((newNode s nd).1.set x
            { pn with contents := pn.contents ++ [(newNode s nd).2] }).get x =
            some { pn with contents := pn.contents ++ [(newNode s nd).2] } :=
          Store.get_set_self _ x _ pn hg
        unfold contentsOf at hcm
        rw [hgx] at hcm
        simp only [List.mem_append, List.mem_singleton] at hcm
        rcases hcm with hcm | hcm
        · have hpn : pn.contents = contentsOf (newNode s nd).1 x := by
            unfold contentsOf; rw [hg]
          rw [hpn, hcon x] at hcm
          exact hx c hcm
        · subst hcm
          exact hB
      · rw [contentsOf_eq_of_get _ _ _ (Store.get_set_ne _ p _ x hxp), hcon x] at hcm
        exact hx c hcm
    · intro x
      by_cases hxp : x = p
      · subst hxp
        have hgx : ((newNode s nd).1.set x
            { pn with contents := pn.contents ++ [(newNode s nd).2] }).get x =
            some { pn with contents := pn.contents ++ [(newNode s nd).2] } :=
          Store.get_set_self _ x _ pn hg
        unfold contentsOf
        rw [hgx]
        have hpn : contentsOf s x = pn.contents := by
          have h2 := hcon x
          unfold contentsOf at h2
          rw [hg] at h2
          exact h2.symm
        dsimp only
        rw [← hpn]
        exact List.prefix_append _ _
      · rw [contentsOf_eq_of_get _ _ _ (Store.get_set_ne _ p _ x hxp), hcon x]

mutual

theorem allocTree_pres (B : NodeId) (t : PTree) :
    ∀ (s : Store) (p : NodeId),
      (∀ j, ((s.get j).isSome = true) → j < s.nextId) →
      B ≤ s.nextId → B ≤ p → AllocPres B s (allocTree s p t) := by
  intro s p hdom hB hp
  cases t with
  | ptext str =>
    exact attachFresh_pres B s p _ rfl hdom hB hp
  | pelem nm ats ch =>
    have h1 := attachFresh_pres B s p
      { kind := .element, name := nm, attrs := ats, parent := some p } rfl hdom hB hp
    exact AllocPres.trans h1
      (allocForest_pres B ch _ s.nextId h1.1 (le_trans hB h1.2.1) hB)

theorem allocForest_pres (B : NodeId) (ts : List PTree) :
    ∀ (s : Store) (p : NodeId),
      (∀ j, ((s.get j).isSome = true) → j < s.nextId) →
      B ≤ s.nextId → B ≤ p → AllocPres B s (allocForest s p ts) := by
  intro s p hdom hB hp
  cases ts with
  | nil => exact AllocPres.refl B s hdom
  | cons t rest =>
    have h1 := allocTree_pres B t s p hdom hB hp
    exact AllocPres.trans h1
      (allocForest_pres B rest _ p h1.1 (le_trans hB h1.2.1) hp)

end

theorem attachFresh_dom (s : Store) (p : NodeId) (nd : Node)
    (hdom : ∀ j, ((s.get j).isSome = true) → j < s.nextId) :
    ∀ j, (((attachFresh s p nd).get j).isSome = true) → j < (attachFresh s p nd).nextId := by
  unfold attachFresh
  cases hg : (newNode s nd).1.get p with
  | none => exact newNode_dom s nd hdom
  | some pn =>
    intro j hj
    by_cases hjp : j = p
    · subst hjp
      exact newNode_dom s nd hdom j (by rw [hg]; rfl)
    · rw [Store.get_set_ne _ p _ j hjp] at hj
      exact newNode_dom s nd hdom j hj

theorem attachFresh_nextId (s : Store) (p : NodeId) (nd : Node) :
    (attachFresh s p nd).nextId = s.nextId + 1 := by
  unfold attachFresh
  cases hg : (newNode s nd).1.get p <;> rfl

theorem attachFresh_contents (s : Store) (p : NodeId) (nd pn : Node)
    (hg : s.get p = some pn) (hne : p ≠ s.nextId) :
    contentsOf (attachFresh s p nd) p = pn.contents ++ [s.nextId] := by
  have hg1 : (newNode s nd).1.get p = some pn := by
    rw [get_newNode_ne s nd p hne]
    exact hg
  unfold attachFresh
  rw [hg1]
  unfold contentsOf
  rw [Store.get_set_self _ p _ pn hg1]
  rfl

theorem allocTree_contents_p (t : PTree) (s : Store) (p : NodeId) (pn : Node)
    (hg : s.get p = some pn) (hplt : p < s.nextId)
    (hdom : ∀ j, ((s.get j).isSome = true) → j < s.nextId) :
    contentsOf (allocTree s p t) p = pn.contents ++ [s.nextId] := by
  cases t with
  | ptext str =>
    exact attachFresh_contents s p _ pn hg (ne_of_lt hplt)
  | pelem nm ats ch =>
    unfold allocTree
    have hS1 := attachFresh_contents s p
      { kind := .element, name := nm, attrs := ats, parent := some p } pn hg (ne_of_lt hplt)
    have hdom1 := attachFresh_dom s p
      { kind := .element, name := nm, attrs := ats, parent := some p } hdom
    have hpres := allocForest_pres s.nextId ch
      (attachFresh s p { kind := .element, name := nm, attrs := ats, parent := some p })
      s.nextId hdom1 (by rw [attachFresh_nextId]; exact Nat.le_succ _) (le_refl _)
    rw [contentsOf_eq_of_get _ _ p (hpres.2.2.1 p hplt)]
    exact hS1

theorem bsInsertBefore_noParent (s : Store) (i j : NodeId) (hij : j ≠ i)
    (h : parentOf s i = none) : bsInsertBefore s i j = .error .invalidState := by
  unfold bsInsertBefore
  rw [if_neg hij, h]

theorem bsInsertAfter_noParent (s : Store) (i j : NodeId) (hij : j ≠ i)
    (h : parentOf s i = none) : bsInsertAfter s i j = .error .invalidState := by
  unfold bsInsertAfter
  rw [if_neg hij, h]

theorem revLoop_error (body : Store → NodeId → Except DomError Store) (fuel : Nat)
    (s : Store) (frag : NodeId) (m : Nat) (err : DomError)
    (hm : m < (contentsOf s frag).length)
    (he : body s ((contentsOf s frag).get ⟨m, hm⟩) = .error err) :
    revLoop body (fuel + 1) s frag (m + 1) = .error err := by
  unfold revLoop
  dsimp only
  rw [dif_pos hm, he]

theorem fwdLoop_error (body : Store → NodeId → Except DomError Store) (fuel : Nat)
    (s : Store) (frag : NodeId) (i : Nat) (err : DomError)
    (hi : i < (contentsOf s frag).length)
    (he : body s ((contentsOf s frag).get ⟨i, hi⟩) = .error err) :
    fwdLoop body (fuel + 1) s frag i = .error err := by
  unfold fwdLoop
  dsimp only
  rw [dif_pos hi, he]

/-- C9 amended: `insertAdjacentElement` with `beforebegin`/`afterend` on a
parentless node always fails with the InvalidStateError-class error;
`insertAdjacentHTML` fails likewise whenever the parsed fragment is nonempty
(the empty fragment is the no-op exception shown by the counterexample); any
position string other than the four legal ones fails with the
ValueError-class error for both operations; every failure happens before any
tree mutation. -/
theorem C9_adjacent_errors (s : Store) (t : NodeId)
    (hdom : ∀ j, ((s.get j).isSome = true) → j < s.nextId)
    (hpar : parentOf s t = none) (htb : t < s.nextId) :
    (∀ e, e ≠ t → Element.insertAdjacentElement s t "beforebegin" e = .error .invalidState) ∧
    (∀ e, e ≠ t → Element.insertAdjacentElement s t "afterend" e = .error .invalidState) ∧
    (∀ u ts, Element.insertAdjacentHTML s t "beforebegin" (u :: ts) = .error .invalidState) ∧
    (∀ u ts, Element.insertAdjacentHTML s t "afterend" (u :: ts) = .error .invalidState) ∧
    (∀ pos e forest, ¬ pos = "beforebegin" → ¬ pos = "afterbegin" → ¬ pos = "beforeend" →
      ¬ pos = "afterend" →
      Element.insertAdjacentElement s t pos e = .error .invalidPosition ∧
      Element.insertAdjacentHTML s t pos forest = .error .invalidPosition) := by
  have hfrag : ∀ u ts,
      (∀ c ∈ contentsOf (allocForest
          (newNode s { kind := .element, name := "[document]" }).1 s.nextId (u :: ts))
          s.nextId, s.nextId ≤ c) ∧
      parentOf (allocForest
          (newNode s { kind := .element, name := "[document]" }).1 s.nextId (u :: ts)) t
        = none ∧
      contentsOf (allocForest
          (newNode s { kind := .element, name := "[document]" }).1 s.nextId (u :: ts))
          s.nextId ≠ [] := by
    intro u ts
    have hdomA := newNode_dom s { kind := .element, name := "[document]" } hdom
    have hrootA := get_newNode_self s { kind := .element, name := "[document]" } hdom
    have hpres := allocForest_pres s.nextId (u :: ts)
      (newNode s { kind := .element, name := "[document]" }).1 s.nextId hdomA
      (Nat.le_succ _) (le_refl _)
    refine ⟨?_, ?_, ?_⟩
    · intro c hc
      refine hpres.2.2.2.1 s.nextId ?_ c hc
      intro d hd
      unfold contentsOf at hd
      rw [hrootA] at hd
      cases hd
    · unfold parentOf
      rw [hpres.2.2.1 t htb, get_newNode_ne s _ t (ne_of_lt htb)]
      unfold parentOf at hpar
      exact hpar
    · have hstep : contentsOf (allocTree
          (newNode s { kind := .element, name := "[document]" }).1 s.nextId u) s.nextId =
          [s.nextId + 1] := by
        have h0 := allocTree_contents_p u
          (newNode s { kind := .element, name := "[document]" }).1 s.nextId
          { kind := .element, name := "[document]" } hrootA (Nat.lt_succ_self _) hdomA
        simpa using h0
      have htp := allocTree_pres s.nextId u
        (newNode s { kind := .element, name := "[document]" }).1 s.nextId hdomA
        (Nat.le_succ _) (le_refl _)
      have hfp := allocForest_pres s.nextId ts
        (allocTree (newNode s { kind := .element, name := "[document]" }).1 s.nextId u)
        s.nextId htp.1 (le_trans (Nat.le_succ _) htp.2.1) (le_refl _)
      have hpref := hfp.2.2.2.2 s.nextId
      rw [hstep] at hpref
      show contentsOf (allocForest
          (allocTree (newNode s { kind := .element, name := "[document]" }).1 s.nextId u)
          s.nextId ts) s.nextId ≠ []
      intro h0
      rw [h0] at hpref
      rcases hpref with ⟨tail, htail⟩
      cases htail
  refine ⟨?_, ?_, ?_, ?_, ?_⟩
  · intro e he
    unfold Element.insertAdjacentElement
    rw [if_pos rfl]
    exact bsInsertBefore_noParent s t e he hpar
  · intro e he
    unfold Element.insertAdjacentElement
    rw [if_neg (by decide), if_neg (by decide), if_neg (by decide), if_pos rfl]
    exact bsInsertAfter_noParent s t e he hpar
  · intro u ts
    obtain ⟨hbound, hparF, hne0⟩ := hfrag u ts
    unfold Element.insertAdjacentHTML
    dsimp only
    rw [if_pos rfl]
    unfold allocFragment
    dsimp only
    obtain ⟨m, hm⟩ := Nat.exists_eq_succ_of_ne_zero
      (fun h0 => hne0 (List.eq_nil_of_length_eq_zero h0))
    rw [hm]
    have hlt : m < (contentsOf (allocForest
        (newNode s { kind := .element, name := "[document]" }).1 s.nextId (u :: ts))
        s.nextId).length := by
      rw [hm]
      exact Nat.lt_succ_self _
    refine revLoop_error _ (m + 1) _ _ m .invalidState hlt ?_
    refine bsInsertBefore_noParent _ t _ ?_ hparF
    have hcm := List.get_mem (contentsOf (allocForest
      (newNode s { kind := .element, name := "[document]" }).1 s.nextId (u :: ts))
      s.nextId) m hlt
    intro hce
    exact absurd htb (not_lt_of_le (le_trans (hbound _ hcm) (le_of_eq (congrArg id hce))))
  · intro u ts
    obtain ⟨hbound, hparF, hne0⟩ := hfrag u ts
    unfold Element.insertAdjacentHTML
    dsimp only
    rw [if_neg (by decide), if_neg (by decide), if_neg (by decide), if_pos rfl]
    unfold allocFragment
    dsimp only
    obtain ⟨m, hm⟩ := Nat.exists_eq_succ_of_ne_zero
      (fun h0 => hne0 (List.eq_nil_of_length_eq_zero h0))
    have hlt : 0 < (contentsOf (allocForest
        (newNode s { kind := .element, name := "[document]" }).1 s.nextId (u :: ts))
        s.nextId).length := by
      rw [hm]
      exact Nat.succ_pos _
    refine fwdLoop_error _ _ _ _ 0 .invalidState hlt ?_
    refine bsInsertAfter_noParent _ t _ ?_ hparF
    have hcm := List.get_mem (contentsOf (allocForest
      (newNode s { kind := .element, name := "[document]" }).1 s.nextId (u :: ts))
      s.nextId) 0 hlt
    intro hce
    exact absurd htb (not_lt_of_le (le_trans (hbound _ hcm) (le_of_eq (congrArg id hce))))
  · intro pos e forest h1 h2 h3 h4
    constructor
    · unfold Element.insertAdjacentElement
      rw [if_neg h1, if_neg h2, if_neg h3, if_neg h4]
    · unfold Element.insertAdjacentHTML
      dsimp only
      rw [if_neg h1, if_neg h2, if_neg h3, if_neg h4]

/-- A store whose listed ids are below `nextId` has its whole lookup domain
below `nextId`. -/
theorem dom_of_bound (s : Store) (h : ∀ j ∈ s.ids, j < s.nextId) :
    ∀ j, ((s.get j).isSome = true) → j < s.nextId := by
  intro j hj
  cases hg : s.get j with
  | none => rw [hg] at hj; cases hj
  | some n => exact h j (lookupN_some_mem hg)

/-- C9 witness: the amended error contract applied to a store holding one
parentless `<div>`. -/
theorem C9_adjacent_errors_witness :
    (∀ e, e ≠ 0 → Element.insertAdjacentElement sC9 0 "beforebegin" e
      = .error .invalidState) ∧
    (∀ e, e ≠ 0 → Element.insertAdjacentElement sC9 0 "afterend" e
      = .error .invalidState) ∧
    (∀ u ts, Element.insertAdjacentHTML sC9 0 "beforebegin" (u :: ts)
      = .error .invalidState) ∧
    (∀ u ts, Element.insertAdjacentHTML sC9 0 "afterend" (u :: ts)
      = .error .invalidState) ∧
    (∀ pos e forest, ¬ pos = "beforebegin" → ¬ pos = "afterbegin" → ¬ pos = "beforeend" →
      ¬ pos = "afterend" →
      Element.insertAdjacentElement sC9 0 pos e = .error .invalidPosition ∧
      Element.insertAdjacentHTML sC9 0 pos forest = .error .invalidPosition) :=
  C9_adjacent_errors sC9 0 (dom_of_bound sC9 (by decide)) (by decide) (by decide)

/-- Splitting a parent chain at an intermediate node. -/
theorem chainP_append (f : NodeId → Option NodeId) (z : NodeId) :
    ∀ (l1 : List NodeId) (x y : NodeId) (l2 : List NodeId),
      chainP f x (l1 ++ z :: l2) y ↔ chainP f x l1 z ∧ chainP f z l2 y := by
  intro l1
  induction l1 with
  | nil =>
    intro x y l2
    simp only [List.nil_append, chainP]
  | cons w t ih =>
    intro x y l2
    simp only [List.cons_append, chainP, List.append_eq, ih w y l2, and_assoc]

theorem chainP_mono (f g : NodeId → Option NodeId)
    (hsub : ∀ a b, g a = some b → f a = some b) :
    ∀ (l : List NodeId) (x y : NodeId), chainP g x l y → chainP f x l y := by
  intro l
  induction l with
  | nil => intro x y h; exact hsub x y h
  | cons z t ih => intro x y h; exact ⟨hsub x z h.1, ih z y h.2⟩

theorem acyclicP_mono (f g : NodeId → Option NodeId)
    (hsub : ∀ a b, g a = some b → f a = some b) (hf : AcyclicP f) : AcyclicP g :=
  fun x l hc => hf x l (chainP_mono f g hsub l x x hc)

theorem chainP_transfer (f g : NodeId → Option NodeId) (i : NodeId)
    (hag : ∀ a, a ≠ i → g a = f a) :
    ∀ (l : List NodeId) (x y : NodeId), chainP g x l y → i ∉ x :: l → chainP f x l y := by
  intro l
  induction l with
  | nil =>
    intro x y h hm
    have hx : x ≠ i := fun he => hm (he ▸ List.mem_cons_self x [])
    show f x = some y
    rw [← hag x hx]
    exact h
  | cons z t ih =>
    intro x y h hm
    have hx : x ≠ i := fun he => hm (he ▸ List.mem_cons_self x (z :: t))
    refine ⟨show f x = some z by rw [← hag x hx]; exact h.1, ih z y h.2 ?_⟩
    intro hmem
    exact hm (List.mem_cons_of_mem x hmem)

theorem chainP_firstReach (g : NodeId → Option NodeId) :
    ∀ (n : Nat) (l : List NodeId) (x y : NodeId), l.length ≤ n → chainP g x l y → x ≠ y →
      ∃ l2, chainP g x l2 y ∧ y ∉ x :: l2 := by
  intro n
  induction n with
  | zero =>
    intro l x y hlen h hxy
    have hl : l = [] := List.eq_nil_of_length_eq_zero (Nat.le_zero.1 hlen)
    subst hl
    exact ⟨[], h, by simp; exact fun he => hxy he.symm⟩
  | succ n ih =>
    intro l x y hlen h hxy
    by_cases hm : y ∈ l
    · obtain ⟨l1, l2, rfl⟩ := List.append_of_mem hm
      have h1 := (chainP_append g y l1 x y l2).1 h
      have hlen1 : l1.length ≤ n := by
        have := List.length_append l1 (y :: l2)
        simp [List.length_append] at hlen ⊢
        omega
      exact ih l1 x y hlen1 h1.1 hxy
    · refine ⟨l, h, ?_⟩
      intro hmem
      rcases List.mem_cons.1 hmem with he | he
      · exact hxy he.symm
      · exact hm he

/-- Redirecting one parent pointer to a non-descendant target keeps the
parent map acyclic: the core argument behind C5. -/
theorem acyclicP_update (f : NodeId → Option NodeId) (i p : NodeId)
    (hf : AcyclicP f) (hip : p ≠ i) (hnr : ¬ Reaches f p i) :
    AcyclicP (fun x => if x = i then some p else f x) := by
  have hag : ∀ a, a ≠ i → (fun x => if x = i then some p else f x) a = f a := by
    intro a ha
    simp [ha]
  have hkey : ∀ l, ¬ chainP (fun x => if x = i then some p else f x) i l i := by
    intro l hc
    cases l with
    | nil =>
      have h1 : (some p : Option NodeId) = some i := by
        have := hc
        simp only [chainP] at this
        simpa using this
      exact hip (Option.some.inj h1)
    | cons z t =>
      obtain ⟨hz, hrest⟩ := hc
      have hzp : p = z := by
        simp only [if_pos rfl] at hz
        exact Option.some.inj hz
      subst hzp
      obtain ⟨l2, hc2, hnm⟩ :=
        chainP_firstReach (fun x => if x = i then some p else f x) t.length t p i
          (le_refl _) hrest hip
      exact hnr ⟨l2, chainP_transfer f _ i hag l2 p i hc2 hnm⟩
  intro x l hc
  by_cases hx : i ∈ x :: l
  · rcases List.mem_cons.1 hx with he | he
    · subst he
      exact hkey l hc
    · obtain ⟨l1, l2, rfl⟩ := List.append_of_mem he
      have hsplit := (chainP_append _ i l1 x x l2).1 hc
      have hrot : chainP (fun x => if x = i then some p else f x) i (l2 ++ x :: l1) i :=
        (chainP_append _ x l2 i i l1).2 ⟨hsplit.2, hsplit.1⟩
      exact hkey _ hrot
  · exact hf x l (chainP_transfer f _ i hag l x x hc hx)

theorem keys_updN (i : NodeId) (n : Node) :
    ∀ l : List (NodeId × Node), (updN l i n).map Prod.fst = l.map Prod.fst := by
  intro l
  induction l with
  | nil => rfl
  | cons kv t ih =>
    by_cases hk : kv.1 = i
    · simp [updN, hk]
    · simp [updN, if_neg hk, ih]

theorem ids_set (s : Store) (i : NodeId) (n : Node) : (s.set i n).ids = s.ids :=
  keys_updN i n s.nodes

theorem parentOf_set_contents (s : Store) (p : NodeId) (n1 np : Node)
    (hgp : s.get p = some np) (hpa : n1.parent = np.parent) (x : NodeId) :
    parentOf (s.set p n1) x = parentOf s x := by
  by_cases hx : x = p
  · subst hx
    unfold parentOf
    rw [Store.get_set_self s x n1 np hgp, hgp]
    exact hpa
  · unfold parentOf
    rw [Store.get_set_ne s p n1 x hx]

theorem parentOf_detach_ne (s : Store) (i x : NodeId) (hx : x ≠ i) :
    parentOf (bsDetach s i) x = parentOf s x := by
  unfold bsDetach
  cases hgi : s.get i with
  | none => rfl
  | some n1 =>
    unfold parentOf
    rw [Store.get_set_ne s i _ x hx]

theorem parentOf_detach_self (s : Store) (i : NodeId) :
    parentOf (bsDetach s i) i = none := by
  unfold bsDetach
  cases hgi : s.get i with
  | none =>
    unfold parentOf
    rw [hgi]
  | some n1 =>
    unfold parentOf
    rw [Store.get_set_self s i _ n1 hgi]

theorem contentsOf_detach (s : Store) (i x : NodeId) :
    contentsOf (bsDetach s i) x = contentsOf s x := by
  unfold bsDetach
  cases hgi : s.get i with
  | none => rfl
  | some n1 =>
    by_cases hx : x = i
    · subst hx
      unfold contentsOf
      rw [Store.get_set_self s x _ n1 hgi, hgi]
    · unfold contentsOf
      rw [Store.get_set_ne s i _ x hx]

theorem parentOf_extract_ne (s : Store) (i : NodeId) (x : NodeId) (hx : x ≠ i) :
    parentOf (bsExtract s i) x = parentOf s x := by
  unfold bsExtract
  cases hgi : s.get i with
  | none => rfl
  | some n =>
    dsimp only
    cases hpar : n.parent with
    | none => rfl
    | some p =>
      dsimp only
      cases hgp : s.get p with
      | none => exact parentOf_detach_ne s i x hx
      | some np =>
        rw [parentOf_detach_ne _ i x hx]
        exact parentOf_set_contents s p
          { np with contents := removeFirst np.contents i } np hgp rfl x

theorem parentOf_extract_sub (s : Store) (i : NodeId) (x y : NodeId)
    (h : parentOf (bsExtract s i) x = some y) : parentOf s x = some y := by
  by_cases hx : x = i
  · subst hx
    unfold bsExtract at h
    cases hgi : s.get x with
    | none => rw [hgi] at h; exact h
    | some n =>
      rw [hgi] at h
      dsimp only at h
      cases hpar : n.parent with
      | none => rw [hpar] at h; exact h
      | some p =>
        rw [hpar] at h
        rw [parentOf_detach_self _ x] at h
        cases h
  · rw [parentOf_extract_ne s i x hx] at h
    exact h

/-- Extraction removes the node from its parent's child list and touches no
other child list. -/
theorem contentsOf_extract (s : Store) (i : NodeId) (x : NodeId) :
    contentsOf (bsExtract s i) x =
      if parentOf s i = some x then removeFirst (contentsOf s x) i
      else contentsOf s x := by
  unfold bsExtract
  cases hgi : s.get i with
  | none =>
    have hp : parentOf s i = none := by unfold parentOf; rw [hgi]
    rw [hp]
    simp
  | some n =>
    dsimp only
    have hp : parentOf s i = n.parent := by unfold parentOf; rw [hgi]
    cases hpar : n.parent with
    | none => rw [hp, hpar]; simp
    | some p =>
      dsimp only
      rw [hp, hpar]
      cases hgp : s.get p with
      | none =>
        rw [contentsOf_detach _ i x]
        by_cases hxp : x = p
        · subst hxp
          have hcx : contentsOf s x = [] := by unfold contentsOf; rw [hgp]
          rw [if_pos rfl, hcx]
          rfl
        · rw [if_neg (fun he => hxp (Option.some.inj he).symm)]
      | some np =>
        rw [contentsOf_detach _ i x]
        by_cases hxp : x = p
        · subst hxp
          rw [if_pos rfl]
          unfold contentsOf
          rw [Store.get_set_self s x _ np hgp, hgp]
        · rw [if_neg (fun he => hxp (Option.some.inj he).symm)]
          unfold contentsOf
          rw [Store.get_set_ne s p _ x hxp]

theorem removeFirst_sublist (i : NodeId) : ∀ l : List NodeId, List.Sublist (removeFirst l i) l := by
  intro l
  induction l with
  | nil => exact List.Sublist.refl []
  | cons x t ih =>
    by_cases hx : x = i
    · rw [removeFirst, if_pos hx]
      exact List.sublist_cons_self x t
    · rw [removeFirst, if_neg hx]
      exact List.Sublist.cons₂ x ih

theorem mem_removeFirst_of_ne (i j : NodeId) (hj : j ≠ i) :
    ∀ l : List NodeId, j ∈ l → j ∈ removeFirst l i := by
  intro l
  induction l with
  | nil => intro h; cases h
  | cons x t ih =>
    intro hm
    by_cases hx : x = i
    · rw [removeFirst, if_pos hx]
      rcases List.mem_cons.1 hm with he | ht
      · exact absurd (he.trans hx) hj
      · exact ht
    · rw [removeFirst, if_neg hx]
      rcases List.mem_cons.1 hm with he | ht
      · exact he ▸ List.mem_cons_self x _
      · exact List.mem_cons_of_mem x (ih ht)

theorem not_mem_removeFirst_of_nodup (i : NodeId) :
    ∀ l : List NodeId, l.Nodup → i ∉ removeFirst l i := by
  intro l
  induction l with
  | nil => intro _ h; cases h
  | cons x t ih =>
    intro hnd
    obtain ⟨hx, ht⟩ := List.nodup_cons.1 hnd
    by_cases hxi : x = i
    · rw [removeFirst, if_pos hxi]
      exact fun hm => hx (hxi ▸ hm)
    · rw [removeFirst, if_neg hxi]
      intro hm
      rcases List.mem_cons.1 hm with he | hmem
      · exact hxi he.symm
      · exact ih ht hmem

theorem count_insertAt (a : NodeId) :
    ∀ (k : Nat) (l : List NodeId), (insertAt k a l).count a = l.count a + 1 := by
  intro k
  induction k with
  | zero => intro l; rw [insertAt]; simp [List.count_cons]
  | succ n ih =>
    intro l
    cases l with
    | nil => rw [insertAt]; simp
    | cons x t => rw [insertAt]; simp [List.count_cons, ih t]; omega

theorem contentsOf_set_parent (s : Store) (p : NodeId) (n1 np : Node)
    (hgp : s.get p = some np) (hco : n1.contents = np.contents) (x : NodeId) :
    contentsOf (s.set p n1) x = contentsOf s x := by
  by_cases hx : x = p
  · subst hx
    unfold contentsOf
    rw [Store.get_set_self s x n1 np hgp, hgp]
    exact hco
  · unfold contentsOf
    rw [Store.get_set_ne s p n1 x hx]

/-- Extraction clears exactly the extracted node's parent pointer. -/
theorem parentOf_extract (s : Store) (i x : NodeId) :
    parentOf (bsExtract s i) x = if x = i then none else parentOf s x := by
  by_cases hx : x = i
  · subst hx
    rw [if_pos rfl]
    unfold bsExtract
    cases hgi : s.get x with
    | none =>
      dsimp only
      unfold parentOf
      rw [hgi]
    | some n =>
      dsimp only
      cases hpar : n.parent with
      | none =>
        dsimp only
        unfold parentOf
        rw [hgi]
        exact hpar
      | some p =>
        dsimp only
        exact parentOf_detach_self _ x
  · rw [if_neg hx]
    exact parentOf_extract_ne s i x hx

theorem ids_detach (s : Store) (i : NodeId) : (bsDetach s i).ids = s.ids := by
  unfold bsDetach
  cases hgi : s.get i with
  | none => rfl
  | some n1 => exact ids_set s i _

theorem ids_extract (s : Store) (i : NodeId) : (bsExtract s i).ids = s.ids := by
  unfold bsExtract
  cases hgi : s.get i with
  | none => rfl
  | some n =>
    dsimp only
    cases hpar : n.parent with
    | none => rfl
    | some p =>
      dsimp only
      cases hgp : s.get p with
      | none => exact ids_detach s i
      | some np => exact (ids_detach _ i).trans (ids_set s p _)

theorem nextId_set (s : Store) (i : NodeId) (n : Node) : (s.set i n).nextId = s.nextId := rfl

theorem nextId_detach (s : Store) (i : NodeId) : (bsDetach s i).nextId = s.nextId := by
  unfold bsDetach
  cases hgi : s.get i with
  | none => rfl
  | some n1 => rfl

theorem nextId_extract (s : Store) (i : NodeId) : (bsExtract s i).nextId = s.nextId := by
  unfold bsExtract
  cases hgi : s.get i with
  | none => rfl
  | some n =>
    dsimp only
    cases hpar : n.parent with
    | none => rfl
    | some p =>
      dsimp only
      cases hgp : s.get p with
      | none => exact nextId_detach s i
      | some np => exact (nextId_detach _ i).trans (nextId_set s p _)

/-- Extraction preserves well-formedness of the store. -/
theorem Wf_extract (s : Store) (i : NodeId) (hwf : Wf s) : Wf (bsExtract s i) := by
  obtain ⟨hnd, hall⟩ := hwf
  refine ⟨by rw [ids_extract]; exact hnd, ?_⟩
  intro j hj
  rw [ids_extract] at hj
  obtain ⟨hlt, hcnd, hch, hparc⟩ := hall j hj
  refine ⟨by rw [nextId_extract]; exact hlt, ?_, ?_, ?_⟩
  · rw [contentsOf_extract]
    by_cases hc : parentOf s i = some j
    · rw [if_pos hc]
      exact (removeFirst_sublist i _).nodup hcnd
    · rw [if_neg hc]
      exact hcnd
  · intro c hc
    rw [contentsOf_extract] at hc
    by_cases hcase : parentOf s i = some j
    · rw [if_pos hcase] at hc
      have hci : c ≠ i := by
        intro he
        subst he
        exact not_mem_removeFirst_of_nodup c _ hcnd hc
      have hcm : c ∈ contentsOf s j := (removeFirst_sublist i _).subset hc
      obtain ⟨hcm1, hcm2⟩ := hch c hcm
      refine ⟨by rw [ids_extract]; exact hcm1, ?_⟩
      rw [parentOf_extract, if_neg hci]
      exact hcm2
    · rw [if_neg hcase] at hc
      have hci : c ≠ i := by
        intro he
        subst he
        exact hcase (hch c hc).2
      obtain ⟨hcm1, hcm2⟩ := hch c hc
      refine ⟨by rw [ids_extract]; exact hcm1, ?_⟩
      rw [parentOf_extract, if_neg hci]
      exact hcm2
  · intro q hq
    rw [parentOf_extract] at hq
    by_cases hji : j = i
    · rw [if_pos hji] at hq
      simp at hq
    · rw [if_neg hji] at hq
      obtain ⟨hq1, hq2, hq3⟩ := hparc q hq
      refine ⟨by rw [ids_extract]; exact hq1, hq2, ?_⟩
      rw [contentsOf_extract]
      by_cases hcase : parentOf s i = some q
      · rw [if_pos hcase]
        exact mem_removeFirst_of_ne i j hji _ hq3
      · rw [if_neg hcase]
        exact hq3

/-- Effect of the splice phase of `Tag.insert` (set the parent pointer, then
splice into the new parent's child list), stated over any intermediate store
that behaves like the extraction of the inserted node. -/
theorem bsSplice_spec (s u : Store) (p i : NodeId) (K : Nat) (ni1 np2 : Node) (s' : Store)
    (hip : ¬ i = p)
    (hpf : ∀ x, parentOf u x = if x = i then none else parentOf s x)
    (hcf : ∀ x, contentsOf u x =
        if parentOf s i = some x then removeFirst (contentsOf s x) i else contentsOf s x)
    (hgi1 : u.get i = some ni1)
    (hgp2 : (u.set i { ni1 with parent := some p }).get p = some np2)
    (hs : (u.set i { ni1 with parent := some p }).set p
        { np2 with contents := insertAt K i np2.contents } = s') :
    (∀ x, parentOf s' x = if x = i then some p else parentOf s x) ∧
    (∃ k, contentsOf s' p = insertAt k i
        (if parentOf s i = some p then removeFirst (contentsOf s p) i
         else contentsOf s p)) ∧
    (∀ x, x ≠ p → contentsOf s' x =
        (if parentOf s i = some x then removeFirst (contentsOf s x) i
         else contentsOf s x)) := by
  subst hs
  have hpi : ¬ p = i := fun he => hip he.symm
  have hgp1 : u.get p = some np2 := by
    rw [Store.get_set_ne u i { ni1 with parent := some p } p hpi] at hgp2
    exact hgp2
  have houter : ∀ x,
      parentOf ((u.set i { ni1 with parent := some p }).set p
        { np2 with contents := insertAt K i np2.contents }) x =
      parentOf (u.set i { ni1 with parent := some p }) x :=
    parentOf_set_contents (u.set i { ni1 with parent := some p }) p
      { np2 with contents := insertAt K i np2.contents } np2 hgp2 rfl
  have hinner : ∀ x, parentOf (u.set i { ni1 with parent := some p }) x =
      if x = i then some p else parentOf u x := by
    intro x
    by_cases hx : x = i
    · subst hx
      rw [if_pos rfl]
      unfold parentOf
      rw [Store.get_set_self u x { ni1 with parent := some p } ni1 hgi1]
    · rw [if_neg hx]
      unfold parentOf
      rw [Store.get_set_ne u i { ni1 with parent := some p } x hx]
  have hinnerC : ∀ x, contentsOf (u.set i { ni1 with parent := some p }) x = contentsOf u x :=
    contentsOf_set_parent u i { ni1 with parent := some p } ni1 hgi1 rfl
  refine ⟨?_, ?_, ?_⟩
  · intro x
    rw [houter x, hinner x]
    by_cases hx : x = i
    · rw [if_pos hx, if_pos hx]
    · rw [if_neg hx, if_neg hx, hpf x, if_neg hx]
  · refine ⟨K, ?_⟩
    have h1 : contentsOf ((u.set i { ni1 with parent := some p }).set p
        { np2 with contents := insertAt K i np2.contents }) p =
        insertAt K i np2.contents := by
      unfold contentsOf
      rw [Store.get_set_self (u.set i { ni1 with parent := some p }) p
        { np2 with contents := insertAt K i np2.contents } np2 hgp2]
    have h2 : np2.contents = contentsOf u p := by
      unfold contentsOf
      rw [hgp1]
    rw [h1, h2, hcf p]
  · intro x hx
    have h1 : contentsOf ((u.set i { ni1 with parent := some p }).set p
        { np2 with contents := insertAt K i np2.contents }) x =
        contentsOf (u.set i { ni1 with parent := some p }) x := by
      unfold contentsOf
      rw [Store.get_set_ne (u.set i { ni1 with parent := some p }) p
        { np2 with contents := insertAt K i np2.contents } x hx]
    rw [h1, hinnerC x, hcf x]

/-- Full effect of a successful `Tag.insert` on parent pointers and child
lists: the inserted node ends under the target parent, it is removed from any
previous parent's child list, and nothing else changes. -/
theorem bsInsert_ok_spec (s : Store) (p : NodeId) (pos : Nat) (i : NodeId) (s' : Store)
    (h : bsInsert s p pos i = .ok s') :
    i ≠ p ∧ ((s.get p).isSome = true) ∧ ((s.get i).isSome = true) ∧
    (∀ x, parentOf s' x = if x = i then some p else parentOf s x) ∧
    (∃ k, contentsOf s' p = insertAt k i
        (if parentOf s i = some p then removeFirst (contentsOf s p) i
         else contentsOf s p)) ∧
    (∀ x, x ≠ p → contentsOf s' x =
        (if parentOf s i = some x then removeFirst (contentsOf s x) i
         else contentsOf s x)) := by
  unfold bsInsert at h
  split at h
  · exact absurd h (by simp)
  next hip =>
  split at h
  next np ni hgp hgi =>
    dsimp only at h
    split at h
    next ni1 hgi1 =>
      split at h
      next np2 hgp2 =>
        injection h with hs
        have hpf : ∀ x, parentOf (match ni.parent with
            | some _ => bsExtract s i | none => s) x =
            if x = i then none else parentOf s x := by
          cases hpar : ni.parent with
          | some q => exact fun x => parentOf_extract s i x
          | none =>
            intro x
            by_cases hx : x = i
            · subst hx
              rw [if_pos rfl]
              dsimp only
              unfold parentOf
              rw [hgi]
              exact hpar
            · rw [if_neg hx]
        have hcf : ∀ x, contentsOf (match ni.parent with
            | some _ => bsExtract s i | none => s) x =
            if parentOf s i = some x then removeFirst (contentsOf s x) i
            else contentsOf s x := by
          have hpsi : parentOf s i = ni.parent := by unfold parentOf; rw [hgi]
          cases hpar : ni.parent with
          | some q => exact fun x => contentsOf_extract s i x
          | none =>
            intro x
            rw [hpsi, hpar]
            simp
        have hmain := bsSplice_spec s _ p i _ ni1 np2 s' hip hpf hcf hgi1 hgp2 hs
        exact ⟨hip, by rw [hgp]; rfl, by rw [hgi]; rfl, hmain.1, hmain.2.1, hmain.2.2⟩
      next => exact absurd h (by simp)
    next => exact absurd h (by simp)
  next hno => exact absurd h (by simp)

/-- A detached node has no ancestors. -/
theorem noReaches_of_none (f : NodeId → Option NodeId) (a b : NodeId) (h : f a = none) :
    ¬ Reaches f a b := by
  intro hr
  obtain ⟨l, hl⟩ := hr
  cases l with
  | nil =>
    have h1 : f a = some b := hl
    rw [h] at h1
    cases h1
  | cons z t =>
    obtain ⟨h1, _⟩ := hl
    rw [h] at h1
    cases h1

/-- A successful `Tag.insert` preserves acyclicity when the inserted node is
not an ancestor of (or equal to) the target parent. -/
theorem bsInsert_ok_acyclic (s : Store) (p : NodeId) (pos : Nat) (i : NodeId) (s' : Store)
    (hac : Acyclic s) (hnr : ¬ Reaches (parentOf s) p i)
    (h : bsInsert s p pos i = .ok s') : Acyclic s' := by
  obtain ⟨hip, _, _, hpf, _, _⟩ := bsInsert_ok_spec s p pos i s' h
  have hupd := acyclicP_update (parentOf s) i p hac (fun he => hip he.symm) hnr
  exact acyclicP_mono _ (parentOf s') (fun a b hb => by rw [hpf a] at hb; exact hb) hupd

/-- A successful `Tag.insert` relocates the inserted node: it sits exactly
once under its new parent and under no other node. -/
theorem bsInsert_ok_relocated (s : Store) (p : NodeId) (pos : Nat) (i : NodeId) (s' : Store)
    (hwf : Wf s) (h : bsInsert s p pos i = .ok s') : Relocated s' p i := by
  obtain ⟨hip, hgp, hgi, hpf, ⟨k, hcp⟩, hco⟩ := bsInsert_ok_spec s p pos i s' h
  have hpmem : p ∈ s.ids := by
    cases hg : s.get p with
    | none => rw [hg] at hgp; cases hgp
    | some np => exact lookupN_some_mem hg
  have himem : i ∈ s.ids := by
    cases hg : s.get i with
    | none => rw [hg] at hgi; cases hgi
    | some ni => exact lookupN_some_mem hg
  obtain ⟨hnd, hall⟩ := hwf
  refine ⟨by rw [hpf i]; simp, ?_, ?_⟩
  · rw [hcp, count_insertAt]
    have hzero : (if parentOf s i = some p then removeFirst (contentsOf s p) i
        else contentsOf s p).count i = 0 := by
      by_cases hc : parentOf s i = some p
      · rw [if_pos hc]
        exact List.count_eq_zero.2 (not_mem_removeFirst_of_nodup i _ (hall p hpmem).2.1)
      · rw [if_neg hc]
        refine List.count_eq_zero.2 ?_
        intro hm
        exact hc ((hall p hpmem).2.2.1 i hm).2
    rw [hzero]
  · intro r hr
    rw [hco r hr]
    by_cases hc : parentOf s i = some r
    · rw [if_pos hc]
      have hrmem : r ∈ s.ids :=
        ((hall i himem).2.2.2 r (by rw [hc]; exact List.mem_singleton.2 rfl)).1
      exact not_mem_removeFirst_of_nodup i _ (hall r hrmem).2.1
    · rw [if_neg hc]
      intro hm
      have hrmem : r ∈ s.ids := by
        cases hg : s.get r with
        | none =>
          unfold contentsOf at hm
          rw [hg] at hm
          cases hm
        | some nr => exact lookupN_some_mem hg
      exact hc ((hall r hrmem).2.2.1 i hm).2

theorem acyclic_extract (s : Store) (i : NodeId) (hac : Acyclic s) : Acyclic (bsExtract s i) :=
  acyclicP_mono (parentOf s) _ (fun a b hb => parentOf_extract_sub s i a b hb) hac

theorem not_reaches_extract (s : Store) (i q c : NodeId) (h : ¬ Reaches (parentOf s) q c) :
    ¬ Reaches (parentOf (bsExtract s i)) q c := by
  intro hr
  obtain ⟨l, hl⟩ := hr
  exact h ⟨l, chainP_mono (parentOf s) _
    (fun a b hb => parentOf_extract_sub s i a b hb) l q c hl⟩

theorem bsInsertBefore_ok_inv (s : Store) (t el : NodeId) (s' : Store)
    (h : bsInsertBefore s t el = .ok s') :
    ∃ q idx, parentOf s t = some q ∧ bsInsert (bsExtract s el) q idx el = .ok s' := by
  unfold bsInsertBefore at h
  split at h
  · exact absurd h (by simp)
  next hne =>
  split at h
  · exact absurd h (by simp)
  next q hq =>
    dsimp only at h
    split at h
    next idx hidx => exact ⟨q, idx, hq, h⟩
    next => exact absurd h (by simp)

theorem bsInsertAfter_ok_inv (s : Store) (t el : NodeId) (s' : Store)
    (h : bsInsertAfter s t el = .ok s') :
    ∃ q idx, parentOf s t = some q ∧ bsInsert (bsExtract s el) q idx el = .ok s' := by
  unfold bsInsertAfter at h
  split at h
  · exact absurd h (by simp)
  next hne =>
  split at h
  · exact absurd h (by simp)
  next q hq =>
    dsimp only at h
    split at h
    next idx hidx => exact ⟨q, idx + 1, hq, h⟩
    next => exact absurd h (by simp)

theorem lookupN_filter_sub (q : NodeId × Node → Bool) :
    ∀ l : List (NodeId × Node), (l.map Prod.fst).Nodup →
      ∀ k v, lookupN (l.filter q) k = some v → lookupN l k = some v := by
  intro l
  induction l with
  | nil => intro _ k v h; cases h
  | cons kv t ih =>
    intro hnd k v h
    rw [List.map_cons] at hnd
    obtain ⟨hk, ht⟩ := List.nodup_cons.1 hnd
    by_cases hq : q kv
    · rw [List.filter_cons_of_pos hq] at h
      by_cases hkk : kv.1 = k
      · rw [lookupN, if_pos hkk] at h ⊢
        exact h
      · rw [lookupN, if_neg hkk] at h ⊢
        exact ih ht k v h
    · rw [List.filter_cons_of_neg hq] at h
      have h1 := ih ht k v h
      have hkk : kv.1 ≠ k := by
        intro he
        exact hk (he ▸ lookupN_some_mem h1)
      rw [lookupN, if_neg hkk]
      exact h1

theorem parentOf_filter_sub (s : Store) (q : NodeId × Node → Bool) (hnd : s.ids.Nodup)
    (a b : NodeId) (h : parentOf ⟨s.nodes.filter q, s.nextId⟩ a = some b) :
    parentOf s a = some b := by
  unfold parentOf Store.get at h ⊢
  cases hl : lookupN (s.nodes.filter q) a with
  | none =>
    rw [hl] at h
    cases h
  | some n =>
    rw [hl] at h
    rw [lookupN_filter_sub q s.nodes hnd a n hl]
    exact h

/-- `decompose` preserves acyclicity: the surviving nodes keep a sub-map of
the old parent map. -/
theorem acyclic_decompose (s : Store) (i : NodeId) (hwf : Wf s) (hac : Acyclic s) :
    Acyclic (bsDecompose s i) := by
  apply acyclicP_mono (parentOf s) _ ?_ hac
  intro a b hb
  unfold bsDecompose at hb
  dsimp only at hb
  have hnd1 : (bsExtract s i).ids.Nodup := by
    rw [ids_extract]
    exact hwf.1
  exact parentOf_extract_sub s i a b (parentOf_filter_sub (bsExtract s i) _ hnd1 a b hb)

/-- C5 (amended): the node-inserting mutation operations (`appendChild`,
`prepend`, `insertBefore`, `insertAdjacentElement`) relocate an already-present
node rather than duplicating it and preserve acyclicity provided the inserted
node is not an ancestor of (or equal to) the node the insertion attaches it to
(the target element itself for `afterbegin`/`beforeend` and the direct
insertions, its parent for `beforebegin`/`afterend`); `replaceChild` and
`remove` preserve acyclicity unconditionally. -/
theorem C5_acyclicity_preserved (s : Store) (hwf : Wf s) (hac : Acyclic s) :
    (∀ p c s', ¬ Reaches (parentOf s) p c →
        Element.appendChild s p c = .ok s' → Acyclic s' ∧ Relocated s' p c) ∧
    (∀ p c s', ¬ Reaches (parentOf s) p c →
        Element.prepend s p c = .ok s' → Acyclic s' ∧ Relocated s' p c) ∧
    (∀ p c r s', ¬ Reaches (parentOf s) p c →
        Element.insertBefore s p c r = .ok s' → Acyclic s' ∧ Relocated s' p c) ∧
    (∀ t c s' pstr, (pstr = "afterbegin" ∨ pstr = "beforeend") →
        ¬ Reaches (parentOf s) t c →
        Element.insertAdjacentElement s t pstr c = .ok s' → Acyclic s' ∧ Relocated s' t c) ∧
    (∀ t c q s' pstr, (pstr = "beforebegin" ∨ pstr = "afterend") →
        parentOf s t = some q → ¬ Reaches (parentOf s) q c →
        Element.insertAdjacentElement s t pstr c = .ok s' → Acyclic s' ∧ Relocated s' q c) ∧
    (∀ p nw old s', Element.replaceChild s p nw old = .ok s' → Acyclic s') ∧
    (∀ j, Acyclic (Element.remove s j)) := by
  refine ⟨?_, ?_, ?_, ?_, ?_, ?_, ?_⟩
  · intro p c s' hnr h
    unfold Element.appendChild bsAppend at h
    exact ⟨bsInsert_ok_acyclic s p _ c s' hac hnr h,
      bsInsert_ok_relocated s p _ c s' hwf h⟩
  · intro p c s' hnr h
    unfold Element.prepend at h
    split at h
    · exact ⟨bsInsert_ok_acyclic s p _ c s' hac hnr h,
        bsInsert_ok_relocated s p _ c s' hwf h⟩
    · unfold bsAppend at h
      exact ⟨bsInsert_ok_acyclic s p _ c s' hac hnr h,
        bsInsert_ok_relocated s p _ c s' hwf h⟩
  · intro p c r s' hnr h
    unfold Element.insertBefore at h
    split at h
    · exact absurd h (by simp)
    next idx hidx =>
      exact ⟨bsInsert_ok_acyclic s p idx c s' hac hnr h,
        bsInsert_ok_relocated s p idx c s' hwf h⟩
  · intro t c s' pstr hp hnr h
    unfold Element.insertAdjacentElement at h
    rcases hp with rfl | rfl
    · rw [if_neg (by decide), if_pos rfl] at h
      exact ⟨bsInsert_ok_acyclic s t 0 c s' hac hnr h,
        bsInsert_ok_relocated s t 0 c s' hwf h⟩
    · rw [if_neg (by decide), if_neg (by decide), if_pos rfl] at h
      unfold bsAppend at h
      exact ⟨bsInsert_ok_acyclic s t _ c s' hac hnr h,
        bsInsert_ok_relocated s t _ c s' hwf h⟩
  · intro t c q s' pstr hp hq hnr h
    unfold Element.insertAdjacentElement at h
    rcases hp with rfl | rfl
    · rw [if_pos rfl] at h
      obtain ⟨q', idx, hq', hins⟩ := bsInsertBefore_ok_inv s t c s' h
      rw [hq] at hq'
      have hqq : q = q' := Option.some.inj hq'
      subst hqq
      exact ⟨bsInsert_ok_acyclic (bsExtract s c) q idx c s' (acyclic_extract s c hac)
          (not_reaches_extract s c q c hnr) hins,
        bsInsert_ok_relocated (bsExtract s c) q idx c s' (Wf_extract s c hwf) hins⟩
    · rw [if_neg (by decide), if_neg (by decide), if_neg (by decide), if_pos rfl] at h
      obtain ⟨q', idx, hq', hins⟩ := bsInsertAfter_ok_inv s t c s' h
      rw [hq] at hq'
      have hqq : q = q' := Option.some.inj hq'
      subst hqq
      exact ⟨bsInsert_ok_acyclic (bsExtract s c) q idx c s' (acyclic_extract s c hac)
          (not_reaches_extract s c q c hnr) hins,
        bsInsert_ok_relocated (bsExtract s c) q idx c s' (Wf_extract s c hwf) hins⟩
  · intro p nw old s' h
    unfold Element.replaceChild at h
    split at h
    · exact absurd h (by simp)
    next idx hidx =>
      split at h
      next n hget =>
        injection h with hs
        subst hs
        exact acyclicP_mono (parentOf s) _ (fun a b hb => by
          rw [parentOf_set_contents s p
            { n with contents := n.contents.set idx nw } n hget rfl a] at hb
          exact hb) hac
      next => exact absurd h (by simp)
  · intro j
    show Acyclic (bsDecompose s j)
    exact acyclic_decompose s j hwf hac

/-- Witness for C5: on a two-node store with a detached `<div>` and `<p>`,
`appendChild` succeeds, and the resulting tree is acyclic with `<p>` relocated
under `<div>`. -/
theorem C5_acyclicity_preserved_witness :
    Acyclic sC5wRes ∧ Relocated sC5wRes 0 1 :=
  (C5_acyclicity_preserved sC5w (by decide)
      (acyclic_of_parent_lt sC5w (by decide))).1 0 1 sC5wRes
    (noReaches_of_none (parentOf sC5w) 0 1 (by decide))
    (by decide)

end Pydom

